import Mathlib

/-!
Verification development for the embedded Lisp runtime of blind-jump-gba
(src/source/script/lisp.cpp and src/source/script/vm.cpp).

The development shallowly embeds the runtime's data model and operations:

* the fixed-size value pool with its free-list allocator and the
  mark-and-sweep collector (`PoolState`, `value_pool_alloc`, `value_pool_free`,
  `gc_mark`, `gc_sweep`, `run_gc`, `alloc_value`, the `make_*` constructors);
* the intrusive protected-roots list (`PListState`, `protectedBase_ctor`,
  `protectedBase_dtor`, `protected_walk`);
* the string intern table (`InternTable`, `intern`);
* the globals binary search tree keyed on interned symbol pointers
  (`GTree`, `globals_tree_insert`, `globals_tree_find`, `globals_tree_erase`)
  together with `get_var` / `set_var` at top level;
* the operand-stack / funcall layer shared by the evaluator and the
  bytecode VM (`VMState`, `funcall`, `eval_application`, `tailCallStep`);
* the `equal` and `range` built-ins.

Machine integers: the pool holds at most 9000 cells and intern offsets are
bounded by 1999, so indices are modelled as `Nat`; the 32-bit signed values
stored in integer cells are modelled as `Int` (no claim depends on 32-bit
wraparound).  Addresses (`Value*`, `const char*`) are modelled as `Nat`
identifiers; pointer equality is `Nat` equality.
-/

namespace BlindJumpLisp

/-! ## Value cells -/

/-- Error codes, from `enum class Error::Code` (lisp.hpp usage in lisp.cpp). -/
inductive ErrorCode where
  | out_of_memory
  | mismatched_parentheses
  | undefined_variable_access
  | invalid_argc
  | invalid_argument_type
  | value_not_callable
  | invalid_syntax
deriving DecidableEq

/-- Function sub-variants, from `Function::ModeBits`
(`cpp_function`, `lisp_function`, `lisp_bytecode_function`).
A native function is identified by the id of its host callable; the two
interpreted variants store compressed references (here plain `Nat` indices)
to their code / bytecode pair and their captured lexical-binding chain. -/
inductive FnVariant where
  | cpp (impl : Nat)
  | lispFn (code lexicalBindings : Nat)
  | bytecode (bytecode lexicalBindings : Nat)
deriving DecidableEq

/-- Payload of one value cell (the variants of the `ValueMemory` union in
lisp.cpp).  Cross-cell references (cons car/cdr, error context, string
buffer, ...) are pool indices, i.e. compressed pointers.  A data buffer's
scratch-buffer contents are carried inline as a list of bytes (chars). -/
inductive Cell where
  | heapNode
  | nil
  | integer (value : Int)
  | cons (car cdr : Nat)
  | function (variant : FnVariant)
  | error (code : ErrorCode) (context : Nat)
  | symbol (name : Nat)
  | userData (obj : Nat)
  | dataBuffer (data : List Char)
  | string (dataBuffer : Nat) (offset : Nat)
deriving DecidableEq

/-- Header bits of a cell: `hdr_.alive_` and `hdr_.mark_bit_`. -/
structure Hdr where
  alive : Bool
  mark : Bool
deriving DecidableEq

/-! ## The value pool (lisp.cpp: `value_pool_init` / `value_pool_alloc` /
`value_pool_free`, `alloc_value`, `run_gc`, and the constructors) -/

/-- `#define VALUE_POOL_SIZE 9000`. -/
def VALUE_POOL_SIZE : Nat := 9000

/-- `SCRATCH_BUFFER_SIZE` (reference value 2048, per the platform layer). -/
def SCRATCH_BUFFER_SIZE : Nat := 2048

/-- Pool-level runtime state: the cell array with its headers, the free
list, and the context fields the constructors read (`nil_`, `oom_`,
`string_buffer_`, `lexical_bindings_`, the host's scratch-buffer hint).
`gcCount` is instrumentation counting completed `run_gc` passes; it is not
a field of the C++ context but an observation used by the theorems. -/
structure PoolState where
  cells : List (Cell × Hdr)
  freeList : List Nat
  gcCount : Nat
  nilRef : Nat
  oomRef : Nat
  stringBuffer : Nat
  lexicalBindings : Nat
  scratchRemaining : Nat
deriving DecidableEq

/-- Cell-with-header read; out-of-range reads yield a dead heap node. -/
def getCH (s : PoolState) (i : Nat) : Cell × Hdr :=
  s.cells.getD i (Cell.heapNode, ⟨false, false⟩)

/-- The payload at slot `i`. -/
def getCell (s : PoolState) (i : Nat) : Cell := (getCH s i).1

/-- The header at slot `i`. -/
def getHdr (s : PoolState) (i : Nat) : Hdr := (getCH s i).2

/-- The free list built by `value_pool_init`'s loop: each index `0 ≤ i < n`
is pushed onto the head in turn, so the final list is `[n-1, ..., 0]`. -/
def initFreeList : Nat → List Nat
  | 0 => []
  | n + 1 => n :: initFreeList n

/-- `value_pool_init()`: every cell is a dead, unmarked heap node threaded
onto the free list.  The context fields are zero-initialised placeholders;
`init()` (see `lisp_init_pool`) allocates nil and the OOM sentinel next. -/
def value_pool_init : PoolState :=
  { cells := List.replicate VALUE_POOL_SIZE (Cell.heapNode, ⟨false, false⟩)
    freeList := initFreeList VALUE_POOL_SIZE
    gcCount := 0
    nilRef := 0
    oomRef := 0
    stringBuffer := 0
    lexicalBindings := 0
    scratchRemaining := 1 }

/-- `value_pool_alloc()`: pop the free-list head, or fail. -/
def value_pool_alloc (s : PoolState) : PoolState × Option Nat :=
  match s.freeList with
  | [] => (s, none)
  | v :: rest => ({ s with freeList := rest }, some v)

/-- `value_pool_free(v)`: retag as heap node, clear `alive_` and
`mark_bit_`, relink onto the free-list head. -/
def value_pool_free (s : PoolState) (v : Nat) : PoolState :=
  { s with cells := s.cells.set v (Cell.heapNode, ⟨false, false⟩)
           freeList := v :: s.freeList }

/-- The `init_val` lambda inside `alloc_value`: `mark_bit_ := false`,
`alive_ := true` (the payload is written afterwards by the constructor). -/
def init_val (s : PoolState) (v : Nat) : PoolState :=
  { s with cells := s.cells.set v ((getCH s v).1, ⟨true, false⟩) }

/-- Write the payload of slot `i`, keeping its header bits. -/
def setCell (s : PoolState) (i : Nat) (c : Cell) : PoolState :=
  { s with cells := s.cells.set i (c, (getCH s i).2) }

/-- One step of the mark phase on the cell at index `i`.  `gc_mark` traces
the roots (context singletons, lexical chain, macro list, operand stack,
globals tree, `this_`, protected list) and sets the mark bit of every
reachable — hence alive — cell; the set of reached indices is abstracted
as the oracle `reach`. -/
def markHdr (reach : Nat → Bool) (i : Nat) (ch : Cell × Hdr) : Cell × Hdr :=
  (ch.1, ⟨ch.2.alive, ch.2.mark || (ch.2.alive && reach i)⟩)

/-- Mark every cell of the pool according to `reach` (index-threaded walk). -/
def markCells (reach : Nat → Bool) : Nat → List (Cell × Hdr) → List (Cell × Hdr)
  | _, [] => []
  | i, ch :: rest => markHdr reach i ch :: markCells reach (i + 1) rest

/-- The `gc_mark()` phase over the whole pool. -/
def gc_mark (reach : Nat → Bool) (s : PoolState) : PoolState :=
  { s with cells := markCells reach 0 s.cells }

/-- The per-cell half of a sweep step: an alive marked cell survives with
its mark cleared; an alive unmarked cell is finalized and returned to the
pool (becoming a dead heap node); dead cells are untouched. -/
def sweepCell (ch : Cell × Hdr) : Cell × Hdr :=
  if ch.2.alive then
    if ch.2.mark then (ch.1, ⟨true, false⟩)
    else (Cell.heapNode, ⟨false, false⟩)
  else ch

/-- Whether a sweep collects the cell (`alive_ && not mark_bit_`). -/
def isCollected (ch : Cell × Hdr) : Bool := ch.2.alive && !ch.2.mark

/-- The first step of `gc_sweep`: if the context's current string packing
buffer was not marked, drop it to nil so future strings allocate a fresh
buffer. -/
def sweep_drop_string_buffer (s : PoolState) : PoolState :=
  if (getHdr s s.stringBuffer).mark then s else { s with stringBuffer := s.nilRef }

/-- `gc_sweep()`: drop the string packing buffer if unmarked, then walk the
pool linearly, freeing every alive unmarked cell and clearing the mark bit
of survivors.  The source's single loop is split into the per-cell update
(`sweepCell`) and the list of collected indices; since the loop conses each
freed index onto the free list in ascending order, the freed indices end up
reversed on the head.  Returns the collect count. -/
def gc_sweep (s : PoolState) : PoolState × Nat :=
  let s1 := sweep_drop_string_buffer s
  let freed := (List.range s1.cells.length).filter (fun i => isCollected (getCH s1 i))
  ({ s1 with cells := s1.cells.map sweepCell
             freeList := freed.reverse ++ s1.freeList },
   freed.length)

/-- `run_gc()`: `gc_mark(), gc_sweep()`; bumps the pass counter. -/
def run_gc (reach : Nat → Bool) (s : PoolState) : PoolState × Nat :=
  let p := gc_sweep (gc_mark reach s)
  ({ p.1 with gcCount := p.1.gcCount + 1 }, p.2)

/-- `alloc_value()`: pop the free list; on failure run one GC pass and
retry exactly once; on a second failure report `none` (the C++ returns
`nullptr`, which every constructor maps to the OOM sentinel). -/
def alloc_value (reach : Nat → Bool) (s : PoolState) : PoolState × Option Nat :=
  match value_pool_alloc s with
  | (s1, some v) => (init_val s1 v, some v)
  | (s1, none) =>
    let s2 := (run_gc reach s1).1
    match value_pool_alloc s2 with
    | (s3, some v) => (init_val s3 v, some v)
    | (s3, none) => (s3, none)

/-- `make_cons(car, cdr)`. -/
def make_cons (reach : Nat → Bool) (s : PoolState) (car cdr : Nat) : PoolState × Nat :=
  match alloc_value reach s with
  | (s1, some v) => (setCell s1 v (Cell.cons car cdr), v)
  | (s1, none) => (s1, s1.oomRef)

/-- `make_integer(value)`. -/
def make_integer (reach : Nat → Bool) (s : PoolState) (value : Int) : PoolState × Nat :=
  match alloc_value reach s with
  | (s1, some v) => (setCell s1 v (Cell.integer value), v)
  | (s1, none) => (s1, s1.oomRef)

/-- `make_symbol(name, mode)`.  The name pointer is taken already resolved
(`Symbol::ModeBits::stable_pointer`); in `requires_intern` mode the source
calls `intern(name)` inside the success branch only, so the failure path is
identical. -/
def make_symbol (reach : Nat → Bool) (s : PoolState) (name : Nat) : PoolState × Nat :=
  match alloc_value reach s with
  | (s1, some v) => (setCell s1 v (Cell.symbol name), v)
  | (s1, none) => (s1, s1.oomRef)

/-- `make_function(impl)` (native variant, `cpp_function`). -/
def make_function (reach : Nat → Bool) (s : PoolState) (impl : Nat) : PoolState × Nat :=
  match alloc_value reach s with
  | (s1, some v) => (setCell s1 v (Cell.function (FnVariant.cpp impl)), v)
  | (s1, none) => (s1, s1.oomRef)

/-- `make_bytecode_function(bytecode)`: captures the context's current
lexical-binding chain. -/
def make_bytecode_function (reach : Nat → Bool) (s : PoolState) (bytecode : Nat) :
    PoolState × Nat :=
  match alloc_value reach s with
  | (s1, some v) =>
    (setCell s1 v (Cell.function (FnVariant.bytecode bytecode s.lexicalBindings)), v)
  | (s1, none) => (s1, s1.oomRef)

/-- `make_error(error_code, context)`. -/
def make_error (reach : Nat → Bool) (s : PoolState) (code : ErrorCode) (context : Nat) :
    PoolState × Nat :=
  match alloc_value reach s with
  | (s1, some v) => (setCell s1 v (Cell.error code context), v)
  | (s1, none) => (s1, s1.oomRef)

/-- `make_userdata(obj)`. -/
def make_userdata (reach : Nat → Bool) (s : PoolState) (obj : Nat) : PoolState × Nat :=
  match alloc_value reach s with
  | (s1, some v) => (setCell s1 v (Cell.userData obj), v)
  | (s1, none) => (s1, s1.oomRef)

/-- `make_databuffer(pfrm)`: when the host reports no scratch buffers
remaining, first run a GC pass to collect stray data buffers, then allocate
a cell owning a fresh scratch buffer (contents unspecified by the source;
modelled as zero bytes).  The host-side buffer count is a hint owned by the
platform and is left unmodified. -/
def make_databuffer (reach : Nat → Bool) (s : PoolState) : PoolState × Nat :=
  let s0 := if s.scratchRemaining = 0 then (run_gc reach s).1 else s
  match alloc_value reach s0 with
  | (s1, some v) =>
    (setCell s1 v (Cell.dataBuffer (List.replicate SCRATCH_BUFFER_SIZE (Char.ofNat 0))), v)
  | (s1, none) => (s1, s1.oomRef)

/-- Bytes of the scratch buffer owned by the data-buffer cell at `i`. -/
def bufferData (s : PoolState) (i : Nat) : List Char :=
  match getCell s i with
  | Cell.dataBuffer data => data
  | _ => []

/-- Number of trailing null bytes found by `make_string`'s probe: the loop
runs `i` from `SCRATCH_BUFFER_SIZE - 1` down to `1`, counting until the
first non-null byte (index 0 is never examined). -/
def trailingFree (data : List Char) : Nat :=
  min ((data.reverse.takeWhile (fun c => c = Char.ofNat 0)).length) (SCRATCH_BUFFER_SIZE - 1)

/-- Overwrite `data` with `str` starting at `offset` (the `while (*string)`
copy loop). -/
def writeChars (data : List Char) (offset : Nat) (str : List Char) : List Char :=
  match str with
  | [] => data
  | c :: rest => writeChars (data.set offset c) (offset + 1) rest

/-- `make_string(pfrm, string)`: try to pack into the unused tail of the
current string buffer; otherwise acquire a fresh data buffer, zero it, and
write at offset 0.  Every allocation-failure path returns the OOM sentinel.
(The `Protected p(buffer)` in the fresh-buffer path only touches the
protected-roots list, modelled separately; see `protectedBase_ctor`.) -/
def make_string (reach : Nat → Bool) (s : PoolState) (str : List Char) : PoolState × Nat :=
  let len := str.length
  let probe :
      Option Nat × PoolState :=
    if s.stringBuffer ≠ s.nilRef then
      let free := trailingFree (bufferData s s.stringBuffer)
      if free > len + 1 then (some s.stringBuffer, s)
      else (none, { s with stringBuffer := s.nilRef })
    else (none, s)
  match probe with
  | (some existing, s0) =>
    let offset := (SCRATCH_BUFFER_SIZE - trailingFree (bufferData s0 existing)) + 1
    let s1 := setCell s0 existing
        (Cell.dataBuffer (writeChars (bufferData s0 existing) offset str))
    match alloc_value reach s1 with
    | (s2, some v) => (setCell s2 v (Cell.string existing offset), v)
    | (s2, none) => (s2, s2.oomRef)
  | (none, s0) =>
    match make_databuffer reach s0 with
    | (s1, buffer) =>
      if buffer = s1.oomRef then (s1, s1.oomRef)
      else
        let s2 := { s1 with stringBuffer := buffer }
        let s3 := setCell s2 buffer
            (Cell.dataBuffer (writeChars (List.replicate SCRATCH_BUFFER_SIZE (Char.ofNat 0)) 0 str))
        match alloc_value reach s3 with
        | (s4, some v) => (setCell s4 v (Cell.string buffer 0), v)
        | (s4, none) => (s4, s4.oomRef)

/-- The start of `init()` as far as the pool is concerned: initialise the
pool, allocate the nil singleton, then allocate the OOM sentinel
(`tag = error`, `code = out_of_memory`, `context = nil`); the string
packing buffer and lexical chain start out as nil. -/
def lisp_init_pool : PoolState :=
  let s0 := value_pool_init
  match alloc_value (fun _ => false) s0 with
  | (s1, some vnil) =>
    let s2 := setCell
        { s1 with nilRef := vnil, stringBuffer := vnil, lexicalBindings := vnil }
        vnil Cell.nil
    (match alloc_value (fun _ => false) s2 with
     | (s3, some voom) =>
       setCell { s3 with oomRef := voom } voom (Cell.error ErrorCode.out_of_memory vnil)
     | (s3, none) => s3)
  | (s1, none) => s1

/-- Number of alive cells in the pool. -/
def aliveCount (s : PoolState) : Nat := s.cells.countP (fun ch => ch.2.alive)

/-- Well-formedness of the pool: the free list holds, without duplicates,
exactly the indices of the dead cells. -/
structure PoolWF (s : PoolState) : Prop where
  nodup : s.freeList.Nodup
  bounded : ∀ i ∈ s.freeList, i < s.cells.length
  freeDead : ∀ i ∈ s.freeList, (getHdr s i).alive = false
  deadFree : ∀ i, i < s.cells.length → (getHdr s i).alive = false → i ∈ s.freeList

/-! ## Protected roots (lisp.cpp: `__protected_values`,
`ProtectedBase::ProtectedBase`, `ProtectedBase::~ProtectedBase`, the
protected-list walk at the end of `gc_mark`) -/

/-- The intrusive links of one `ProtectedBase` object (`prev_`, `next_`);
objects are identified by `Nat` ids standing for their stack addresses. -/
structure PNode where
  prev : Option Nat
  next : Option Nat
deriving DecidableEq

/-- The protected-roots registry: the static head `__protected_values` and
the links of every currently-constructed `ProtectedBase`, as an association
list from object id to links. -/
structure PListState where
  head : Option Nat
  nodes : List (Nat × PNode)
deriving DecidableEq

/-- Links of object `id` (absent objects read as unlinked). -/
def pnodeOf (s : PListState) (id : Nat) : PNode :=
  match s.nodes.lookup id with
  | some n => n
  | none => ⟨none, none⟩

/-- Update the stored links of object `id`. -/
def setPNode (s : PListState) (id : Nat) (n : PNode) : PListState :=
  { s with nodes := s.nodes.map (fun p => if p.1 = id then (p.1, n) else p) }

/-- `ProtectedBase::ProtectedBase()`, translated exactly: `next_` starts
null; a local copy `plist` of `__protected_values` is taken; if non-null,
`plist->next_ = this; prev_ = plist;` else `prev_ = nullptr`; finally
`plist = this;` writes the new head into the LOCAL variable, so the static
head `__protected_values` itself is never updated. -/
def protectedBase_ctor (id : Nat) (s : PListState) : PListState :=
  match s.head with
  | some plist =>
    let s1 := setPNode s plist { pnodeOf s plist with next := some id }
    { head := s1.head
      nodes := s1.nodes ++ [(id, ⟨some plist, none⟩)] }
  | none =>
    { head := s.head
      nodes := s.nodes ++ [(id, ⟨none, none⟩)] }

/-- `ProtectedBase::~ProtectedBase()`: splice `next_` and `prev_` around
the object; the head pointer is (again) never updated. -/
def protectedBase_dtor (id : Nat) (s : PListState) : PListState :=
  let n := pnodeOf s id
  let s1 := match n.next with
            | some nx => setPNode s nx { pnodeOf s nx with prev := n.prev }
            | none => s
  let s2 := match n.prev with
            | some pv => setPNode s1 pv { pnodeOf s1 pv with next := n.next }
            | none => s1
  { s2 with nodes := s2.nodes.filter (fun p => p.1 ≠ id) }

/-- The walk `gc_mark()` performs over the protected list:
`p_list = __protected_values; while (p_list) { p_list->gc_mark();
p_list = p_list->next(); }`.  Fuel bounds the walk. -/
def protected_walkFrom (s : PListState) : Option Nat → Nat → List Nat
  | _, 0 => []
  | none, _ => []
  | some id, fuel + 1 => id :: protected_walkFrom s (pnodeOf s id).next fuel

/-- The ids of all Protected objects the GC mark phase visits. -/
def protected_walk (s : PListState) : List Nat :=
  protected_walkFrom s s.head (s.nodes.length + 1)

/-- A scoped-lifetime event on the protected list: a `Protected`
construction or destruction. -/
inductive PListOp where
  | ctor (id : Nat)
  | dtor (id : Nat)
deriving DecidableEq

/-- Apply one construction/destruction event. -/
def applyPListOp (s : PListState) : PListOp → PListState
  | PListOp.ctor id => protectedBase_ctor id s
  | PListOp.dtor id => protectedBase_dtor id s

/-- Apply a sequence of construction/destruction events. -/
def applyPListOps (s : PListState) (ops : List PListOp) : PListState :=
  ops.foldl applyPListOp s

/-- The process-start state: `static ProtectedBase* __protected_values =
nullptr;` and no live objects. -/
def pListInit : PListState := { head := none, nodes := [] }

/-! ## The intern table (lisp.cpp: `intern`) -/

/-- `static const u32 string_intern_table_size = 1999;`. -/
def string_intern_table_size : Nat := 1999

/-- The intern arena: the sequence of null-terminated strings appended so
far (each entry is the string's characters without the terminator).  The
bump position `string_intern_pos_` is the derived `internPos`. -/
structure InternTable where
  entries : List (List Char)
deriving DecidableEq

/-- `string_intern_pos_`: one byte per character plus one terminator per
entry. -/
def internPos (t : InternTable) : Nat :=
  (t.entries.map (fun e => e.length + 1)).sum

/-- The linear scan of `intern`: walk the arena entry by entry, returning
the byte offset of the first entry that compares equal (`str_cmp == 0`). -/
def scanFind : List (List Char) → List Char → Nat → Option Nat
  | [], _, _ => none
  | e :: rest, s, off =>
    if e = s then some off else scanFind rest s (off + e.length + 1)

/-- `intern(string)`: fatal (modelled as `none`) when the string plus its
terminator does not fit in the remaining arena space; otherwise return the
offset of an existing match, or append the string and return the previous
bump position. -/
def intern (t : InternTable) (s : List Char) : Option (Nat × InternTable) :=
  if s.length + 1 > string_intern_table_size - internPos t then none
  else
    match scanFind t.entries s 0 with
    | some off => some (off, t)
    | none => some (internPos t, ⟨t.entries ++ [s]⟩)

/-! ## The globals tree (lisp.cpp: `globals_tree_insert`,
`globals_tree_find`, `globals_tree_erase`, `globals_tree_traverse`) and
top-level variable access (`get_var`, `set_var`, the `unbind` built-in).

A tree node is `((key . value) . (left . right))`; keys are interned
symbol name pointers (`Nat`), values are cell references (`Nat`).  The
comparison in all three operations sends keys GREATER than the node key
into the LEFT subtree (`current_key < key` continues left). -/

/-- The globals binary search tree. -/
inductive GTree where
  | nil
  | node (key value : Nat) (left right : GTree)
deriving DecidableEq

/-- `globals_tree_insert(key, value)`: overwrite the kvp's cdr when the key
exists, else splice a fresh node at the terminal slot the descent reached.
The source's loop over `current`/`prev` is written as structural recursion
along the same comparison path. -/
def globals_tree_insert : GTree → Nat → Nat → GTree
  | GTree.nil, k, v => GTree.node k v GTree.nil GTree.nil
  | GTree.node k' v' l r, k, v =>
    if k' = k then GTree.node k' v l r
    else if k' < k then GTree.node k' v' (globals_tree_insert l k v) r
    else GTree.node k' v' l (globals_tree_insert r k v)

/-- The descent loop shared by `globals_tree_find` (and `erase`): the value
stored at `key`, or `none` when the walk falls off the tree. -/
def globals_tree_find_opt : GTree → Nat → Option Nat
  | GTree.nil, _ => none
  | GTree.node k' v l r, k =>
    if k' = k then some v
    else if k' < k then globals_tree_find_opt l k
    else globals_tree_find_opt r k

/-- Result of `globals_tree_find`: the bound value, the literal nil it
returns when the whole tree is empty, or the `undefined_variable_access`
error cell it makes on a failed descent. -/
inductive FindResult where
  | found (v : Nat)
  | nilResult
  | errUndefined
deriving DecidableEq

/-- `globals_tree_find(key)`: empty tree returns nil (not an error);
otherwise descend, returning the value or an `undefined_variable_access`
error. -/
def globals_tree_find (t : GTree) (k : Nat) : FindResult :=
  match t with
  | GTree.nil => FindResult.nilResult
  | GTree.node _ _ _ _ =>
    match globals_tree_find_opt t k with
    | some v => FindResult.found v
    | none => FindResult.errUndefined

/-- In-order kvp list of the tree, in the order `globals_tree_traverse`'s
Morris walk visits them (left subtree, node, right subtree). -/
def kvps : GTree → List (Nat × Nat)
  | GTree.nil => []
  | GTree.node k v l r => kvps l ++ (k, v) :: kvps r

/-- The keys of the tree in traversal order. -/
def gkeys (t : GTree) : List Nat := (kvps t).map Prod.fst

/-- The unlink half of `globals_tree_erase`: descend with the same
comparison as `find`; when the key matches, replace the pointer to the
matched node by nil (at the root: the whole tree becomes nil) and hand
back the orphaned left and right subtrees. -/
def globals_tree_unlink : GTree → Nat → GTree × Option (GTree × GTree)
  | GTree.nil, _ => (GTree.nil, none)
  | GTree.node k' v l r, k =>
    if k' = k then (GTree.nil, some (l, r))
    else if k' < k then
      let p := globals_tree_unlink l k
      (GTree.node k' v p.1 r, p.2)
    else
      let p := globals_tree_unlink r k
      (GTree.node k' v l p.1, p.2)

/-- Reinsert a list of kvps via `globals_tree_insert` (the
`reattach_child` visitor), in traversal order. -/
def insert_kvps (t : GTree) (ps : List (Nat × Nat)) : GTree :=
  ps.foldl (fun acc p => globals_tree_insert acc p.1 p.2) t

/-- `globals_tree_erase(key)`: unlink the matching node, then reinsert
every kvp of its left subtree and then of its right subtree at the root. -/
def globals_tree_erase (t : GTree) (k : Nat) : GTree :=
  match globals_tree_unlink t k with
  | (t', none) => t'
  | (t', some (sl, sr)) => insert_kvps (insert_kvps t' (kvps sl)) (kvps sr)

/-- The BST well-formedness the comparison discipline maintains: keys in
the left subtree are strictly greater than the node key, keys in the right
subtree strictly smaller. -/
inductive GWF : GTree → Prop
  | nil : GWF GTree.nil
  | node {k v : Nat} {l r : GTree} :
      (∀ x ∈ gkeys l, k < x) → (∀ x ∈ gkeys r, x < k) →
      GWF l → GWF r → GWF (GTree.node k v l r)

/-- A top-level mutation of the globals: the `set` built-in
(`globals_tree_insert` via `set_var` with an empty lexical chain) or the
`unbind` built-in (`globals_tree_erase`). -/
inductive GlobalOp where
  | setOp (k v : Nat)
  | unbindOp (k : Nat)
deriving DecidableEq

/-- Apply one top-level globals mutation. -/
def applyGlobalOp (t : GTree) : GlobalOp → GTree
  | GlobalOp.setOp k v => globals_tree_insert t k v
  | GlobalOp.unbindOp k => globals_tree_erase t k

/-- Apply a history of top-level globals mutations to the initial (empty)
tree state. -/
def applyGlobalOps (ops : List GlobalOp) : GTree :=
  ops.foldl applyGlobalOp GTree.nil

/-- A symbol cell's payload as `get_var` sees it: the interned name bytes
(for the `$`-prefix special cases) and the name pointer (for lookups). -/
structure Sym where
  name : List Char
  ptr : Nat
deriving DecidableEq

/-- The context fields `get_var` reads at top level. -/
structure TopCtx where
  lexicalBindings : List (List (Nat × Nat))
  globals : GTree
  curArgc : Nat
  argsBreakLoc : Nat
  opStack : List Nat
  constants : List (List Char × Int)
deriving DecidableEq

/-- `get_arg(n)`: signed comparison `br >= ((argc - 1) - n)` (the `u8` argc
promotes to `int`, so at top level with `argc == 0` the bound is negative
and the branch is taken); in range, read the operand stack at
`br - ((argc - 1) - n)`; otherwise nil (`none`).  An in-branch index beyond
the stack top is an unchecked read in the source; it is modelled as nil. -/
def get_arg (c : TopCtx) (n : Nat) : Option Nat :=
  if (c.argsBreakLoc : Int) ≥ (c.curArgc : Int) - 1 - (n : Int) then
    let idx : Int := (c.argsBreakLoc : Int) - ((c.curArgc : Int) - 1 - (n : Int))
    c.opStack.get? idx.toNat
  else none

/-- Result of a `get_var` lookup.  `argsList` is the fresh list the `$V`
special case builds (nil when empty, per the list builder). -/
inductive GetResult where
  | val (v : Nat)
  | nilResult
  | argsList (xs : List (Option Nat))
  | intConst (v : Int)
  | errUndefined
deriving DecidableEq

/-- The decimal-suffix accumulation of the `$n` special case:
`argn = argn * 10 + (name_[i] - '0')` over every character after `$`. -/
def dollarArgn (cs : List Char) : Int :=
  cs.foldl (fun acc c => acc * 10 + ((c.toNat : Int) - 48)) 0

/-- The lexical-binding-chain scan of `get_var`: frames outermost-first,
each frame a list of `(symbol . value)` pairs compared by name pointer. -/
def lexicalLookup : List (List (Nat × Nat)) → Nat → Option Nat
  | [], _ => none
  | frame :: rest, p =>
    match frame.find? (fun kv => kv.1 = p) with
    | some kv => some kv.2
    | none => lexicalLookup rest p

/-- `get_var(symbol)`: `$V` returns the current arguments as a fresh list
(nil when there are none); `$...` parses a decimal argument index
(truncated to `u16`) and returns that positional argument; otherwise scan
the lexical chain, then the globals tree, then the host constants table
(only consulted when the tree lookup produced an error). -/
def get_var (c : TopCtx) (s : Sym) : GetResult :=
  if s.name.headD ' ' = '$' then
    if s.name.getD 1 ' ' = 'V' then
      match (List.range c.curArgc).map (fun i => get_arg c i) with
      | [] => GetResult.nilResult
      | xs => GetResult.argsList xs
    else
      let argn := dollarArgn (s.name.drop 1)
      match get_arg c ((argn % 65536).toNat) with
      | some v => GetResult.val v
      | none => GetResult.nilResult
  else
    match lexicalLookup c.lexicalBindings s.ptr with
    | some v => GetResult.val v
    | none =>
      match globals_tree_find c.globals s.ptr with
      | FindResult.found v => GetResult.val v
      | FindResult.nilResult => GetResult.nilResult
      | FindResult.errUndefined =>
        match c.constants.find? (fun kv => kv.1 = s.name) with
        | some kv => GetResult.intConst kv.2
        | none => GetResult.errUndefined

/-- The in-place update half of `set_var`'s lexical scan: overwrite the
cdr of the first kvp of the frame whose symbol matches. -/
def lexical_set_frame : List (Nat × Nat) → Nat → Nat → Option (List (Nat × Nat))
  | [], _, _ => none
  | kv :: rest, p, v =>
    if kv.1 = p then some ((p, v) :: rest)
    else
      match lexical_set_frame rest p v with
      | some rest' => some (kv :: rest')
      | none => none

/-- The frame walk of `set_var`'s lexical scan, outermost frame first. -/
def lexical_set : List (List (Nat × Nat)) → Nat → Nat → Option (List (List (Nat × Nat)))
  | [], _, _ => none
  | f :: rest, p, v =>
    match lexical_set_frame f p v with
    | some f' => some (f' :: rest)
    | none =>
      match lexical_set rest p v with
      | some rest' => some (f :: rest')
      | none => none

/-- `set_var(symbol, val)`: update an existing lexical binding in place
when one matches; otherwise insert into the globals tree. -/
def set_var (c : TopCtx) (s : Sym) (v : Nat) : TopCtx :=
  match lexical_set c.lexicalBindings s.ptr v with
  | some chain => { c with lexicalBindings := chain }
  | none => { c with globals := globals_tree_insert c.globals s.ptr v }

/-- The `unbind` built-in (after its argc/type checks):
`globals_tree_erase(get_op0())`. -/
def unbind_builtin (c : TopCtx) (s : Sym) : TopCtx :=
  { c with globals := globals_tree_erase c.globals s.ptr }

/-! ## The funcall / evaluator / VM layer (lisp.cpp: `funcall`, the
function-application branch of `eval`; vm.cpp: the `TailCall` cases).

The heap is a list of cells addressed by index; cell allocation appends
(the free-list allocator and pool exhaustion are modelled separately by
`PoolState` above).  The operand stack grows at the end of the list, as
`Buffer::push_back` does, so absolute indices such as
`arguments_break_loc_` carry over directly.  The mutually recursive
evaluator and VM are passed in as function parameters (`evalF`, `vmF`) and
native callables as an indexed family (`cppF`); the theorems below hold
for every choice of these, i.e. for the actual recursive tie as well. -/

/-- The interpreter context state shared by `eval`, `funcall` and the VM:
the heap, the operand stack, and the four save/restore fields of `funcall`
(`this_`, `lexical_bindings_`, `arguments_break_loc_`,
`current_fn_argc_`). -/
structure VMState where
  heap : List Cell
  opStack : List Nat
  this : Nat
  lexicalBindings : Nat
  argsBreakLoc : Nat
  curArgc : Nat
  nilRef : Nat
deriving DecidableEq

/-- Dereference a heap cell (out-of-range reads as nil). -/
def heapGetVM (s : VMState) (r : Nat) : Cell := s.heap.getD r Cell.nil

/-- `push_op(v)`. -/
def pushOp (s : VMState) (v : Nat) : VMState := { s with opStack := s.opStack ++ [v] }

/-- `pop_op()`. -/
def popOp (s : VMState) : VMState := { s with opStack := s.opStack.dropLast }

/-- The `pop_args` lambda of `funcall`: pop `argc` operands. -/
def popArgs : VMState → Nat → VMState
  | s, 0 => s
  | s, n + 1 => popArgs (popOp s) n

/-- `get_op(i)` (with `get_op0 = get_op(0)` etc.): index from the stack
top; out-of-range reads return nil. -/
def getOp (s : VMState) (i : Nat) : Nat :=
  if i < s.opStack.length then s.opStack.getD (s.opStack.length - 1 - i) s.nilRef
  else s.nilRef

/-- Allocate a fresh heap cell, returning its reference. -/
def allocVal (s : VMState) (c : Cell) : VMState × Nat :=
  ({ s with heap := s.heap ++ [c] }, s.heap.length)

/-- The body loop of `funcall`'s `lisp_function` case: for each expression
of the body list, pop the previous result, reset `arguments_break_loc_`,
`current_fn_argc_` and `this_`, and evaluate the expression (pushing the
new result).  Fuel bounds the cdr walk. -/
def lispBodyLoop (evalF : Nat → VMState → VMState) (obj argc breakLoc : Nat) :
    Nat → Nat → VMState → VMState
  | 0, _, s => s
  | fuel + 1, exprList, s =>
    if exprList = s.nilRef then s
    else
      match heapGetVM s exprList with
      | Cell.cons car cdr =>
        let s1 := popOp s
        let s2 := { s1 with argsBreakLoc := breakLoc, curArgc := argc, this := obj }
        lispBodyLoop evalF obj argc breakLoc fuel cdr (evalF car s2)
      | _ => s

/-- `funcall(obj, argc)`: save `this_`, the lexical chain, the
argument-break location and the current argc; dispatch on the callee's
type and mode bits (native / interpreted / bytecode, with an
`invalid_argc` error when fewer than `argc` operands are on the stack and
a `value_not_callable` error for non-functions); restore all four saved
fields on the way out. -/
def funcall (evalF : Nat → VMState → VMState)
    (vmF : Nat → Nat → VMState → VMState)
    (cppF : Nat → Nat → VMState → VMState × Nat)
    (fuel : Nat) (obj : Nat) (argc : Nat) (s : VMState) : VMState :=
  let prevThis := s.this
  let prevBindings := s.lexicalBindings
  let prevBreak := s.argsBreakLoc
  let prevArgc := s.curArgc
  let s' :=
    match heapGetVM s obj with
    | Cell.function variant =>
      if s.opStack.length < argc then
        let s1 := popArgs s argc
        let p := allocVal s1 (Cell.error ErrorCode.invalid_argc obj)
        pushOp p.1 p.2
      else
        match variant with
        | FnVariant.cpp impl =>
          let p := cppF impl argc s
          pushOp (popArgs p.1 argc) p.2
        | FnVariant.lispFn codeRef lexRef =>
          let s1 := { s with lexicalBindings := lexRef }
          let breakLoc := s1.opStack.length - 1
          let s2 := pushOp s1 s1.nilRef
          let s3 := lispBodyLoop evalF obj argc breakLoc fuel codeRef s2
          let result := getOp s3 0
          pushOp (popArgs (popOp s3) argc) result
        | FnVariant.bytecode bcRef lexRef =>
          let breakLoc := s.opStack.length - 1
          let s1 := { s with argsBreakLoc := breakLoc, curArgc := argc,
                             this := obj, lexicalBindings := lexRef }
          let s2 :=
            match heapGetVM s1 bcRef with
            | Cell.cons off db => vmF db off s1
            | _ => s1
          let result := getOp s2 0
          pushOp (popArgs (popOp s2) argc) result
    | _ =>
      let p := allocVal s (Cell.error ErrorCode.value_not_callable s.nilRef)
      pushOp p.1 p.2
  { s' with this := prevThis, lexicalBindings := prevBindings,
            argsBreakLoc := prevBreak, curArgc := prevArgc }

/-- Whether a cell is a function cell. -/
def isFunctionCell : Cell → Bool
  | Cell.function _ => true
  | _ => false

/-- The argument-evaluation loop inside `eval`'s application branch: walk
the argument list left to right, evaluating each argument onto the operand
stack and counting `argc`.  A non-cons, non-nil tail takes the error exit:
clear the evaluated arguments, pop the protected form, and push a
`value_not_callable` error whose context is the bad tail (`none` marks
that exit, after which the branch returns directly). -/
def evalArgsLoop (evalF : Nat → VMState → VMState) :
    Nat → Nat → VMState → Nat → VMState × Option Nat
  | 0, _, s, argc => (s, some argc)
  | fuel + 1, argList, s, argc =>
    if argList = s.nilRef then (s, some argc)
    else
      match heapGetVM s argList with
      | Cell.cons car cdr => evalArgsLoop evalF fuel cdr (evalF car s) (argc + 1)
      | _ =>
        let s1 := popArgs s argc
        let s2 := popOp s1
        let p := allocVal s2 (Cell.error ErrorCode.value_not_callable argList)
        (pushOp p.1 p.2, none)

/-- The function-application branch of `eval(code)` (the path taken once
the special-form checks have failed): push the form to protect it from the
GC, evaluate the head to get the callee, evaluate the arguments, `funcall`,
and — when the call's result is an error cell whose context is nil —
overwrite that context with the form being evaluated before the final
pop/pop/push of the result. -/
def eval_application (evalF : Nat → VMState → VMState)
    (vmF : Nat → Nat → VMState → VMState)
    (cppF : Nat → Nat → VMState → VMState × Nat)
    (fuel : Nat) (code : Nat) (s : VMState) : VMState :=
  let s0 := pushOp s code
  match heapGetVM s0 code with
  | Cell.cons car cdr =>
    let s1 := evalF car s0
    let fn := getOp s1 0
    let s2 := popOp s1
    match evalArgsLoop evalF fuel cdr s2 0 with
    | (s3, none) => s3
    | (s3, some argc) =>
      let s4 := funcall evalF vmF cppF fuel fn argc s3
      let result := getOp s4 0
      let s5 :=
        match heapGetVM s4 result with
        | Cell.error c ctx =>
          if ctx = s4.nilRef then
            { s4 with heap := s4.heap.set result (Cell.error c code) }
          else s4
        | _ => s4
      pushOp (popOp (popOp s5)) result
  | _ => s0

/-- Outcome of the `TailCall` dispatch in `vm_execute`, before the chosen
continuation runs: the `while (true) ;` hang, the self-recursive restart
(caller unwinds the lexical frames opened since entry and jumps to the
function's start offset), or an ordinary `funcall` of the target. -/
inductive TailCallOutcome where
  | hang
  | tcoRestart (s : VMState)
  | callsFuncall (s : VMState) (fn argc : Nat)
deriving DecidableEq

/-- The `TailCall` case of `vm_execute` (general `u8 argc` form): when the
target is `this_`, pop it; a mismatched argc falls into `while (true) ;`;
`argc == 0` restarts at the start offset; any other matching argc falls
back to a plain `funcall` (the N-ary in-place overwrite is an unwritten
TODO).  A target other than `this_` is popped and called normally. -/
def tailCallStep (argc : Nat) (s : VMState) : TailCallOutcome :=
  let fn := getOp s 0
  if fn = s.this then
    let s1 := popOp s
    if s.curArgc ≠ argc then TailCallOutcome.hang
    else if argc = 0 then TailCallOutcome.tcoRestart s1
    else TailCallOutcome.callsFuncall s1 fn argc
  else TailCallOutcome.callsFuncall (popOp s) fn argc

/-- The `TailCall1` case of `vm_execute`: when the target is `this_` and
the current argc is 1, pop the function, the new argument, and the old
positional argument, push the new argument in its place, and restart;
a mismatched current argc hangs; otherwise plain `funcall` with one
argument. -/
def tailCall1Step (s : VMState) : TailCallOutcome :=
  let fn := getOp s 0
  if fn = s.this then
    let arg := getOp s 1
    if s.curArgc ≠ 1 then TailCallOutcome.hang
    else TailCallOutcome.tcoRestart (pushOp (popOp (popOp (popOp s))) arg)
  else TailCallOutcome.callsFuncall (popOp s) fn 1

/-! ## The `equal` built-in (lisp.cpp `init()`: `set_var("equal", ...)`) -/

/-- The `Value::Type` tag of a cell, in enum order (`heap_node`, `nil`,
`integer`, `cons`, `function`, `error`, `symbol`, `user_data`,
`data_buffer`, `string`). -/
def cellTag : Cell → Nat
  | Cell.heapNode => 0
  | Cell.nil => 1
  | Cell.integer _ => 2
  | Cell.cons _ _ => 3
  | Cell.function _ => 4
  | Cell.error _ _ => 5
  | Cell.symbol _ => 6
  | Cell.userData _ => 7
  | Cell.dataBuffer _ => 8
  | Cell.string _ _ => 9

/-- Dereference over a bare heap (list of cells). -/
def heapCell (h : List Cell) (r : Nat) : Cell := h.getD r Cell.nil

/-- `String::value()`: the bytes of the backing data buffer from the
string's offset up to the null terminator. -/
def strValue (h : List Cell) (r : Nat) : List Char :=
  match heapCell h r with
  | Cell.string b off =>
    (match heapCell h b with
     | Cell.dataBuffer d => d
     | _ => []).drop off |>.takeWhile (fun c => c ≠ Char.ofNat 0)
  | _ => []

/-- The `equal` built-in on two cell references: unequal type tags compare
false; integers by value; symbols by name pointer; user data by host
pointer; strings by `str_cmp` of their contents; nil, heap nodes, data
buffers and functions by cell address.  The cons case is an unimplemented
TODO in the source — its `break` falls through to `return false` — and the
error case likewise breaks to false. -/
def lisp_equal (h : List Cell) (a b : Nat) : Bool :=
  if cellTag (heapCell h a) ≠ cellTag (heapCell h b) then false
  else
    match heapCell h a, heapCell h b with
    | Cell.integer x, Cell.integer y => x == y
    | Cell.cons _ _, _ => false
    | Cell.error _ _, _ => false
    | Cell.symbol n1, Cell.symbol n2 => n1 == n2
    | Cell.userData o1, Cell.userData o2 => o1 == o2
    | Cell.string _ _, Cell.string _ _ => strValue h a == strValue h b
    | _, _ => a == b

/-! ## The `range` built-in (lisp.cpp `init()`: `set_var("range", ...)`) -/

/-- Result of the `range` built-in: nil (the empty list the list builder
yields), a non-empty integer list, or an error cell's code. -/
inductive RangeResult where
  | nilResult
  | list (xs : List Int)
  | err (code : ErrorCode)
deriving DecidableEq

/-- The list-building loop `for (int i = start; i < end; i += incr)`,
fuel-bounded (the C loop does not terminate for every parameter choice). -/
def rangeLoop (incr e : Int) : Int → Nat → List Int
  | _, 0 => []
  | i, fuel + 1 => if i < e then i :: rangeLoop incr e (i + incr) fuel else []

/-- The common tail of `range` after argument decoding: a zero increment
returns nil immediately, before the loop; otherwise the loop runs and the
list builder's result is nil exactly when nothing was pushed. -/
def range_result (start e incr : Int) (fuel : Nat) : RangeResult :=
  if incr = 0 then RangeResult.nilResult
  else
    match rangeLoop incr e start fuel with
    | [] => RangeResult.nilResult
    | xs => RangeResult.list xs

/-- The `range` built-in over already-type-checked integer arguments in
stack order (`start`, `end`, `increment`): one argument means `0..end`
step 1, two mean `start..end` step 1, three give the step explicitly; any
other argc is an `invalid_argc` error. -/
def range_native (args : List Int) (fuel : Nat) : RangeResult :=
  match args with
  | [e] => range_result 0 e 1 fuel
  | [st, e] => range_result st e 1 fuel
  | [st, e, incr] => range_result st e incr fuel
  | _ => RangeResult.err ErrorCode.invalid_argc

/-! ## Concrete states used by counterexamples and witnesses -/

/-- A VM state mid-way through a bytecode function of two arguments: the
current function (heap ref 1) is `this_`, its two positional arguments and
the freshly pushed operands sit on the stack with the callee on top. -/
def tcoCexState : VMState :=
  { heap := [Cell.nil, Cell.function (FnVariant.bytecode 2 0), Cell.cons 0 0]
    opStack := [0, 0, 0, 0, 1]
    this := 1
    lexicalBindings := 0
    argsBreakLoc := 1
    curArgc := 2
    nilRef := 0 }

/-- A heap holding two structurally equal one-element lists `(1)` at
distinct addresses: refs 1 and 3 are the cons cells, refs 2 and 4 their
integer cars, ref 0 is nil. -/
def equalCexHeap : List Cell :=
  [Cell.nil, Cell.cons 2 0, Cell.integer 1, Cell.cons 4 0, Cell.integer 1]

/-- The pool state after `init()`'s first allocation popped slot 8999 for
the nil singleton (proof scaffolding naming an intermediate of
`lisp_init_pool`). -/
def initStateA : PoolState :=
  { value_pool_init with freeList := initFreeList 8999 }

/-- The pool state once the nil singleton is written and installed in the
context fields. -/
def initStateB : PoolState :=
  setCell { (init_val initStateA 8999) with
    nilRef := 8999, stringBuffer := 8999, lexicalBindings := 8999 } 8999 Cell.nil

/-- The pool state after the second allocation popped slot 8998 for the
OOM sentinel. -/
def initStateC : PoolState :=
  { initStateB with freeList := initFreeList 8998 }

/-- The pool state at the end of `lisp_init_pool`: the OOM sentinel is
written into slot 8998. -/
def initStateD : PoolState :=
  setCell { (init_val initStateC 8998) with oomRef := 8998 } 8998
    (Cell.error ErrorCode.out_of_memory 8999)

/-- A pool state with nothing on the free list and no cells to reclaim,
used to drive the constructors into their exhaustion path. -/
def emptyPool : PoolState :=
  { cells := [], freeList := [], gcCount := 0, nilRef := 0, oomRef := 0,
    stringBuffer := 0, lexicalBindings := 0, scratchRemaining := 1 }

/-- A tiny state for exercising `eval`'s application path: ref 1 is the
form `(5)` — a cons whose head evaluates to the non-callable integer at
ref 2 — so the funcall pushes a `value_not_callable` error with nil
context. -/
def evalAppWitnessState : VMState :=
  ⟨[Cell.nil, Cell.cons 2 0, Cell.integer 5], [], 0, 0, 0, 0, 0⟩

/-- A trivial self-pushing evaluator used to instantiate the parametric
recursive evaluator in witnesses. -/
def pushSelfEval : Nat → VMState → VMState := fun v t => pushOp t v

/-- The top-level evaluation context: empty lexical-binding chain, the
given globals tree, no function frame (`current_fn_argc_ = 0`), the two
nils `init()` seeds the operand stack with, and no host constants.
(`arguments_break_loc_` is uninitialised in the source before the first
funcall; its value is irrelevant to the lookups considered here.) -/
def topLevel (t : GTree) : TopCtx :=
  { lexicalBindings := []
    globals := t
    curArgc := 0
    argsBreakLoc := 1
    opStack := [0, 0]
    constants := [] }

/-! ## Theorems -/

/-- C10: the built-in `range` called with three integer arguments whose
increment is 0 returns nil immediately, for every fuel bound on the
list-building loop — the zero-step check precedes the loop, so a zero step
can never cause a non-terminating loop or unbounded allocation. -/
theorem range_zero_increment_returns_nil (start e : Int) (fuel : Nat) :
    range_native [start, e, 0] fuel = RangeResult.nilResult := by
  simp [range_native, range_result]

/-- C4 (failing-input evaluation): at a state where the `TailCall` target
is the currently-executing function and the instruction argc 2 equals the
current frame's argc, the VM falls back to a plain `funcall` (growing the
operand stack) instead of the claimed in-place tail jump; and when the
argc does not match, the VM enters `while (true) ;` instead of behaving
like `Funcall`. -/
theorem tailcall_not_optimized_and_hangs :
    tailCallStep 2 tcoCexState = TailCallOutcome.callsFuncall (popOp tcoCexState) 1 2 ∧
    tailCallStep 1 tcoCexState = TailCallOutcome.hang ∧
    (∀ s : VMState, ∀ argc, tailCallStep argc s ≠
        TailCallOutcome.tcoRestart (popOp s) ∨ argc = 0 ∨ getOp s 0 ≠ s.this) := by
  refine ⟨by decide, by decide, ?_⟩
  intro s argc
  by_cases hfn : getOp s 0 = s.this
  · by_cases hargc : argc = 0
    · exact Or.inr (Or.inl hargc)
    · left
      simp only [tailCallStep, hfn, if_pos rfl]
      by_cases hcur : s.curArgc ≠ argc
      · simp [hcur]
      · simp [hcur, hargc]
  · exact Or.inr (Or.inr hfn)

/-- C6 (failing-input evaluation): the built-in `equal` applied to two
structurally equal but distinct cons cells — each the list `(1)` — returns
0, because the cons case of `equal` is an unimplemented TODO that falls
through to `return false`; the same heap's integer cells compare equal by
value, so the reader round-trip property fails exactly on cons values. -/
theorem equal_on_equal_cons_lists_is_false :
    lisp_equal equalCexHeap 1 3 = false ∧
    lisp_equal equalCexHeap 2 4 = true ∧
    heapCell equalCexHeap 1 = Cell.cons 2 0 ∧
    heapCell equalCexHeap 3 = Cell.cons 4 0 := by
  decide

/-- Construction and destruction of Protected objects never changes the
static head `__protected_values` (the constructor's final write lands in a
local copy). -/
theorem applyPListOp_head (s : PListState) (op : PListOp) :
    (applyPListOp s op).head = s.head := by
  cases op with
  | ctor id =>
    simp only [applyPListOp, protectedBase_ctor]
    cases h : s.head <;> simp [setPNode, h]
  | dtor id =>
    simp only [applyPListOp, protectedBase_dtor]
    cases h : (pnodeOf s id).next <;> cases h2 : (pnodeOf s id).prev <;> simp [setPNode]

/-- A walk starting from an absent head visits nothing. -/
theorem protected_walk_empty_of_head_none (s : PListState) (h : s.head = none) :
    protected_walk s = [] := by
  unfold protected_walk
  rw [h]
  cases s.nodes.length + 1 <;> rfl

/-- C1 (failing-input evaluation): starting from process start
(`__protected_values = nullptr`), after ANY sequence of `Protected`
constructions and destructions the head is still null and the GC mark
phase's walk over the protected list visits no object at all — the
constructor stores the new head into a local variable, so no live
`Protected` is ever reached by `gc_mark` and the cell it refers to is not
kept alive through the protected list. -/
theorem protected_list_stays_empty (ops : List PListOp) :
    (applyPListOps pListInit ops).head = none ∧
    protected_walk (applyPListOps pListInit ops) = [] := by
  have hhead : (applyPListOps pListInit ops).head = none := by
    induction ops using List.reverseRecOn with
    | nil => rfl
    | append_singleton ops op ih =>
      unfold applyPListOps at ih ⊢
      rw [List.foldl_append, List.foldl_cons, List.foldl_nil, applyPListOp_head]
      exact ih
  exact ⟨hhead, protected_walk_empty_of_head_none _ hhead⟩

/-- Byte length of a run of arena entries (each with its terminator). -/
theorem scanFind_append (l l' : List (List Char)) (s : List Char) (off : Nat) :
    scanFind (l ++ l') s off =
      match scanFind l s off with
      | some p => some p
      | none => scanFind l' s (off + (l.map (fun e => e.length + 1)).sum) := by
  induction l generalizing off with
  | nil => simp [scanFind]
  | cons e rest ih =>
    by_cases he : e = s
    · simp [scanFind, he]
    · simp only [List.cons_append, scanFind, if_neg he, List.map_cons, List.sum_cons,
        List.append_eq]
      rw [ih]
      cases hscan : scanFind rest s (off + e.length + 1) with
      | some q => simp
      | none =>
        simp only []
        congr 1
        omega

/-- A successful scan is stable under extending the arena. -/
theorem scanFind_mono (l ext : List (List Char)) (s : List Char) (off p : Nat)
    (h : scanFind l s off = some p) : scanFind (l ++ ext) s off = some p := by
  rw [scanFind_append, h]

/-- C7: if `intern(s)` succeeded once, returning pointer `p`, then a later
call to `intern(s)` — after any further strings were appended, provided
its up-front space check still passes — finds the stored copy, returns the
same pointer `p`, and appends nothing (the arena is unchanged); hence two
symbol cells created from equal strings carry equal `name_` pointers. -/
theorem intern_returns_same_pointer (t t1 t2 : InternTable) (s : List Char) (p : Nat)
    (h1 : intern t s = some (p, t1))
    (hext : ∃ more, t2.entries = t1.entries ++ more)
    (h2 : s.length + 1 ≤ string_intern_table_size - internPos t2) :
    intern t2 s = some (p, t2) := by
  obtain ⟨more, hmore⟩ := hext
  unfold intern at h1
  by_cases hcap : s.length + 1 > string_intern_table_size - internPos t
  · rw [if_pos hcap] at h1; exact absurd h1 (by simp)
  · rw [if_neg hcap] at h1
    have hfind : scanFind t2.entries s 0 = some p := by
      cases hscan : scanFind t.entries s 0 with
      | some off =>
        rw [hscan] at h1
        have hpt : off = p ∧ t = t1 := by
          simpa [Prod.ext_iff] using h1
        obtain ⟨hp, ht⟩ := hpt
        rw [hmore, ← ht, ← hp]
        exact scanFind_mono _ _ _ _ _ hscan
      | none =>
        rw [hscan] at h1
        have hpt : internPos t = p ∧ InternTable.mk (t.entries ++ [s]) = t1 := by
          simpa [Prod.ext_iff] using h1
        obtain ⟨hp, ht⟩ := hpt
        rw [hmore, ← ht]
        have hsplit : (InternTable.mk (t.entries ++ [s])).entries ++ more =
            t.entries ++ ([s] ++ more) := by simp
        rw [hsplit, scanFind_append, hscan]
        have hhit : scanFind ([s] ++ more) s (0 + (t.entries.map (fun e => e.length + 1)).sum) =
            some (0 + (t.entries.map (fun e => e.length + 1)).sum) := by
          simp [scanFind]
        rw [hhit, ← hp]
        simp [internPos]
    unfold intern
    rw [if_neg (by omega), hfind]

/-- Witness for the intern theorem: interning `"a"` into an arena that
already holds exactly the entry `"a"` (the state after a first successful
`intern`) returns offset 0 and leaves the arena unchanged. -/
theorem intern_returns_same_pointer_witness :
    intern ⟨[['a']]⟩ ['a'] = some (0, ⟨[['a']]⟩) :=
  intern_returns_same_pointer ⟨[]⟩ ⟨[['a']]⟩ ⟨[['a']]⟩ ['a'] 0 (by decide)
    ⟨[], by simp⟩ (by decide)

/-- Reading the last pushed operand: `get_op0` after `push_op(v)` is `v`. -/
theorem getOp_zero_pushOp (s : VMState) (v : Nat) : getOp (pushOp s v) 0 = v := by
  unfold getOp pushOp
  simp [List.getD_eq_getElem?_getD, List.getElem?_concat_length]

/-- Pushing an operand does not change the heap. -/
theorem heapGetVM_pushOp (s : VMState) (v r : Nat) :
    heapGetVM (pushOp s v) r = heapGetVM s r := rfl

/-- Popping an operand does not change the heap. -/
theorem heapGetVM_popOp (s : VMState) (r : Nat) :
    heapGetVM (popOp s) r = heapGetVM s r := rfl

/-- C9: `funcall` saves the previous `this_`, lexical-binding chain,
argument-break location and current argc on entry and restores all four on
every return path — for every callee, argument count, state, and every
behaviour of the mutually recursive evaluator, VM, and native callables —
and on a non-function callee it additionally pushes a freshly allocated
`value_not_callable` error (with nil context) as the call's result. -/
theorem funcall_restores_caller_context (evalF : Nat → VMState → VMState)
    (vmF : Nat → Nat → VMState → VMState)
    (cppF : Nat → Nat → VMState → VMState × Nat)
    (fuel obj argc : Nat) (s : VMState) :
    (funcall evalF vmF cppF fuel obj argc s).this = s.this ∧
    (funcall evalF vmF cppF fuel obj argc s).lexicalBindings = s.lexicalBindings ∧
    (funcall evalF vmF cppF fuel obj argc s).argsBreakLoc = s.argsBreakLoc ∧
    (funcall evalF vmF cppF fuel obj argc s).curArgc = s.curArgc ∧
    (isFunctionCell (heapGetVM s obj) = false →
      (funcall evalF vmF cppF fuel obj argc s).opStack = s.opStack ++ [s.heap.length] ∧
      heapGetVM (funcall evalF vmF cppF fuel obj argc s) s.heap.length =
        Cell.error ErrorCode.value_not_callable s.nilRef) := by
  refine ⟨rfl, rfl, rfl, rfl, ?_⟩
  intro hnf
  unfold funcall
  cases hc : heapGetVM s obj
  case function variant => rw [hc] at hnf; simp [isFunctionCell] at hnf
  all_goals
    refine ⟨rfl, ?_⟩
    simp [heapGetVM, allocVal, pushOp, List.getD_eq_getElem?_getD,
      List.getElem?_concat_length]

/-- Witness for the funcall theorem: calling the non-function cell at
ref 2 (an integer) from a tiny concrete state leaves all four context
fields unchanged and pushes a `value_not_callable` error. -/
theorem funcall_restores_caller_context_witness :
    (funcall (fun _ t => t) (fun _ _ t => t) (fun _ _ t => (t, 0)) 5 2 1
        ⟨[Cell.nil, Cell.nil, Cell.integer 7], [2], 0, 0, 0, 1, 0⟩).curArgc = 1 ∧
    (funcall (fun _ t => t) (fun _ _ t => t) (fun _ _ t => (t, 0)) 5 2 1
        ⟨[Cell.nil, Cell.nil, Cell.integer 7], [2], 0, 0, 0, 1, 0⟩).opStack = [2, 3] ∧
    heapGetVM (funcall (fun _ t => t) (fun _ _ t => t) (fun _ _ t => (t, 0)) 5 2 1
        ⟨[Cell.nil, Cell.nil, Cell.integer 7], [2], 0, 0, 0, 1, 0⟩) 3 =
      Cell.error ErrorCode.value_not_callable 0 := by
  have h := funcall_restores_caller_context (fun _ t => t) (fun _ _ t => t)
    (fun _ _ t => (t, 0)) 5 2 1 ⟨[Cell.nil, Cell.nil, Cell.integer 7], [2], 0, 0, 0, 1, 0⟩
  have hnf := h.2.2.2.2 (by decide)
  exact ⟨h.2.2.2.1, hnf.1, hnf.2⟩

/-- C8: along `eval`'s function-application path, whenever the `funcall`
produces an error cell whose context reference is nil, `eval` overwrites
that context with the form being evaluated before pushing the error as its
result — so the propagated error carries the enclosing expression as its
context.  Quantified over every behaviour of the recursive evaluator, VM
and natives; the hypotheses say the form is a cons, the argument loop took
its normal exit, the call's result is an error with nil context, and that
result is a valid heap reference. -/
theorem eval_replaces_nil_error_context
    (evalF : Nat → VMState → VMState) (vmF : Nat → Nat → VMState → VMState)
    (cppF : Nat → Nat → VMState → VMState × Nat)
    (fuel code : Nat) (s : VMState) (car cdr : Nat)
    (hcons : heapGetVM s code = Cell.cons car cdr)
    (s3 : VMState) (argc : Nat)
    (hargs : evalArgsLoop evalF fuel cdr (popOp (evalF car (pushOp s code))) 0
      = (s3, some argc))
    (c : ErrorCode)
    (herr : heapGetVM
        (funcall evalF vmF cppF fuel (getOp (evalF car (pushOp s code)) 0) argc s3)
        (getOp (funcall evalF vmF cppF fuel (getOp (evalF car (pushOp s code)) 0) argc s3) 0)
      = Cell.error c
          (funcall evalF vmF cppF fuel (getOp (evalF car (pushOp s code)) 0) argc s3).nilRef)
    (hlt : getOp (funcall evalF vmF cppF fuel (getOp (evalF car (pushOp s code)) 0) argc s3) 0
        < (funcall evalF vmF cppF fuel (getOp (evalF car (pushOp s code)) 0) argc s3).heap.length) :
    getOp (eval_application evalF vmF cppF fuel code s) 0
      = getOp (funcall evalF vmF cppF fuel (getOp (evalF car (pushOp s code)) 0) argc s3) 0 ∧
    heapGetVM (eval_application evalF vmF cppF fuel code s)
        (getOp (funcall evalF vmF cppF fuel (getOp (evalF car (pushOp s code)) 0) argc s3) 0)
      = Cell.error c code := by
  have hcons' : heapGetVM (pushOp s code) code = Cell.cons car cdr := hcons
  unfold eval_application
  simp only [hcons', hargs, herr, eq_self_iff_true, if_true]
  constructor
  · exact getOp_zero_pushOp _ _
  · rw [heapGetVM_pushOp, heapGetVM_popOp, heapGetVM_popOp]
    unfold heapGetVM
    simp only []
    rw [List.getD_eq_getElem?_getD, List.getElem?_set_eq_of_lt _ hlt]
    rfl

/-- Witness for the error-context theorem: evaluating the form `(5)` at
the concrete state produces a `value_not_callable` error whose context has
been replaced by the form (ref 1) itself. -/
theorem eval_replaces_nil_error_context_witness :
    getOp (eval_application pushSelfEval (fun _ _ t => t) (fun _ _ t => (t, 0)) 1 1
        evalAppWitnessState) 0 = 3 ∧
    heapGetVM (eval_application pushSelfEval (fun _ _ t => t) (fun _ _ t => (t, 0)) 1 1
        evalAppWitnessState) 3 = Cell.error ErrorCode.value_not_callable 1 := by
  have h := eval_replaces_nil_error_context pushSelfEval (fun _ _ t => t)
    (fun _ _ t => (t, 0)) 1 1 evalAppWitnessState 2 0 (by decide)
    (popOp (pushSelfEval 2 (pushOp evalAppWitnessState 1))) 0 rfl
    ErrorCode.value_not_callable (by decide) (by decide)
  have h3 : getOp (funcall pushSelfEval (fun _ _ t => t) (fun _ _ t => (t, 0)) 1
      (getOp (pushSelfEval 2 (pushOp evalAppWitnessState 1)) 0) 0
      (popOp (pushSelfEval 2 (pushOp evalAppWitnessState 1)))) 0 = 3 := by decide
  rw [h3] at h
  exact h

/-! ### Pool lemmas -/

/-- Membership in the initial free list is exactly boundedness. -/
theorem initFreeList_mem (n i : Nat) : i ∈ initFreeList n ↔ i < n := by
  induction n with
  | zero => simp [initFreeList]
  | succ m ih =>
    simp only [initFreeList, List.mem_cons, ih]
    omega

/-- The initial free list has no duplicates. -/
theorem initFreeList_nodup (n : Nat) : (initFreeList n).Nodup := by
  induction n with
  | zero => simp [initFreeList]
  | succ m ih =>
    simp [initFreeList, List.nodup_cons, ih, initFreeList_mem]

/-- The initial free list threads every pool slot. -/
theorem initFreeList_length (n : Nat) : (initFreeList n).length = n := by
  induction n <;> simp [initFreeList, *]

/-- A boolean predicate and its negation split a list's length. -/
theorem countP_split {α} (l : List α) (p : α → Bool) :
    l.countP p + l.countP (fun a => !(p a)) = l.length := by
  induction l with
  | nil => rfl
  | cons a t ih =>
    simp only [List.countP_cons, List.length_cons]
    cases h : p a <;> simp [h] <;> omega

/-- Counting positions of `range` through `getD` equals counting list
elements. -/
theorem countP_range_getD {α} (l : List α) (d : α) (p : α → Bool) :
    (List.range l.length).countP (fun i => p (l.getD i d)) = l.countP p := by
  induction l with
  | nil => simp
  | cons a t ih =>
    rw [List.length_cons, List.range_succ_eq_map, List.countP_cons, List.countP_map]
    have hcomp : (fun i => p ((a :: t).getD i d)) ∘ Nat.succ = fun i => p (t.getD i d) := by
      funext i
      simp [List.getD_cons_succ]
    rw [show (List.countP ((fun i => p ((a :: t).getD i d)) ∘ Nat.succ) (List.range t.length))
          = (List.range t.length).countP (fun i => p (t.getD i d)) by rw [hcomp]]
    rw [ih, List.countP_cons]
    simp [List.getD_cons_zero]

/-- Reading a just-written slot. -/
theorem getD_set_self {α} (l : List α) (i : Nat) (x d : α) (h : i < l.length) :
    (l.set i x).getD i d = x := by
  rw [List.getD_eq_getElem?_getD, List.getElem?_set_eq_of_lt x h]
  rfl

/-- Reading another slot after a write. -/
theorem getD_set_ne {α} (l : List α) (i j : Nat) (x d : α) (h : i ≠ j) :
    (l.set i x).getD j d = l.getD j d := by
  rw [List.getD_eq_getElem?_getD, List.getElem?_set_ne h, ← List.getD_eq_getElem?_getD]

/-- Reading through `map` when the default is a fixed point of `f`. -/
theorem getD_map_fix {α β} (f : α → β) (l : List α) (j : Nat) (d : α) (e : β)
    (hd : f d = e) : (l.map f).getD j e = f (l.getD j d) := by
  rw [List.getD_eq_getElem?_getD, List.getElem?_map, List.getD_eq_getElem?_getD]
  cases h : l[j]? with
  | none => simp [hd]
  | some a => simp

/-- `setCell` does not change any header. -/
theorem getHdr_setCell (s : PoolState) (i : Nat) (c : Cell) (j : Nat) :
    getHdr (setCell s i c) j = getHdr s j := by
  unfold getHdr setCell getCH
  simp only []
  by_cases hlt : i < s.cells.length
  · by_cases hij : i = j
    · subst hij
      rw [getD_set_self _ _ _ _ hlt]
    · rw [getD_set_ne _ _ _ _ _ hij]
  · rw [List.set_eq_of_length_le (by omega)]

/-- `setCell` keeps the pool's shape and free list. -/
theorem setCell_shape (s : PoolState) (i : Nat) (c : Cell) :
    (setCell s i c).cells.length = s.cells.length ∧
    (setCell s i c).freeList = s.freeList := by
  unfold setCell
  simp

/-- `setCell` preserves pool well-formedness. -/
theorem poolWF_setCell (s : PoolState) (i : Nat) (c : Cell) (h : PoolWF s) :
    PoolWF (setCell s i c) := by
  obtain ⟨hlen, hfree⟩ := setCell_shape s i c
  refine ⟨?_, ?_, ?_, ?_⟩
  · rw [hfree]; exact h.nodup
  · intro j hj; rw [hfree] at hj; rw [hlen]; exact h.bounded j hj
  · intro j hj; rw [hfree] at hj; rw [getHdr_setCell]; exact h.freeDead j hj
  · intro j hj hdead
    rw [hlen] at hj
    rw [getHdr_setCell] at hdead
    rw [hfree]
    exact h.deadFree j hj hdead

/-- `init_val` flips exactly the allocated slot to alive and unmarked. -/
theorem getHdr_init_val (s : PoolState) (v j : Nat) :
    getHdr (init_val s v) j =
      if v = j ∧ v < s.cells.length then ⟨true, false⟩ else getHdr s j := by
  unfold getHdr init_val getCH
  simp only []
  by_cases hlt : v < s.cells.length
  · by_cases hij : v = j
    · subst hij
      rw [getD_set_self _ _ _ _ hlt]
      simp [hlt]
    · rw [getD_set_ne _ _ _ _ _ hij]
      simp [hij]
  · rw [List.set_eq_of_length_le (by omega)]
    simp [hlt]

/-- `init_val` keeps the pool's shape and free list. -/
theorem init_val_shape (s : PoolState) (v : Nat) :
    (init_val s v).cells.length = s.cells.length ∧ (init_val s v).freeList = s.freeList := by
  unfold init_val
  simp

/-- The success path of `alloc_value` when the free list is non-empty:
`value_pool_alloc` pops exactly the head `v`, and `init_val` makes `v`
alive; the result is well-formed and the allocation removed exactly one
(previously dead) cell from the free list. -/
theorem poolWF_alloc (s : PoolState) (v : Nat) (rest : List Nat)
    (h : PoolWF s) (hfree : s.freeList = v :: rest) :
    value_pool_alloc s = ({ s with freeList := rest }, some v) ∧
    (init_val { s with freeList := rest } v).freeList = rest ∧
    getHdr (init_val { s with freeList := rest } v) v = ⟨true, false⟩ ∧
    PoolWF (init_val { s with freeList := rest } v) := by
  have hv : v ∈ s.freeList := by rw [hfree]; exact List.mem_cons_self v rest
  have hvlt : v < s.cells.length := h.bounded v hv
  have hvdead : (getHdr s v).alive = false := h.freeDead v hv
  have hnodup := h.nodup
  rw [hfree] at hnodup
  have hvrest : v ∉ rest := (List.nodup_cons.mp hnodup).1
  have hrestnodup : rest.Nodup := (List.nodup_cons.mp hnodup).2
  refine ⟨by rw [value_pool_alloc, hfree], (init_val_shape _ _).2, ?_, ?_⟩
  · rw [getHdr_init_val]
    simp [hvlt]
  · refine ⟨?_, ?_, ?_, ?_⟩
    · rw [(init_val_shape _ _).2]; exact hrestnodup
    · intro j hj
      rw [(init_val_shape _ _).2] at hj
      rw [(init_val_shape _ _).1]
      exact h.bounded j (by rw [hfree]; exact List.mem_cons_of_mem v hj)
    · intro j hj
      rw [(init_val_shape _ _).2] at hj
      rw [getHdr_init_val]
      have hvj : ¬(v = j) := fun he => hvrest (he ▸ hj)
      simp only [hvj, false_and, if_false]
      exact h.freeDead j (by rw [hfree]; exact List.mem_cons_of_mem v hj)
    · intro j hj hdead
      rw [(init_val_shape _ _).1] at hj
      rw [(init_val_shape _ _).2]
      rw [getHdr_init_val] at hdead
      by_cases hvj : v = j ∧ v < s.cells.length
      · rw [if_pos hvj] at hdead
        exact absurd hdead (by simp)
      · rw [if_neg hvj] at hdead
        have hmem := h.deadFree j hj hdead
        rw [hfree] at hmem
        rcases List.mem_cons.mp hmem with he | hm
        · exact absurd ⟨he.symm, hvlt⟩ hvj
        · exact hm

/-- `value_pool_free` of an alive in-range cell: the freed slot joins the
free list head, its header is cleared, and well-formedness is kept. -/
theorem poolWF_free (s : PoolState) (v : Nat)
    (h : PoolWF s) (hvlt : v < s.cells.length) (halive : (getHdr s v).alive = true) :
    (value_pool_free s v).freeList = v :: s.freeList ∧
    getHdr (value_pool_free s v) v = ⟨false, false⟩ ∧
    PoolWF (value_pool_free s v) := by
  have hvnot : v ∉ s.freeList := fun hv => by
    have := h.freeDead v hv
    rw [halive] at this
    cases this
  have hhdr : ∀ j, getHdr (value_pool_free s v) j =
      if v = j then ⟨false, false⟩ else getHdr s j := by
    intro j
    unfold getHdr value_pool_free getCH
    simp only []
    by_cases hij : v = j
    · subst hij
      rw [getD_set_self _ _ _ _ hvlt]
      simp
    · rw [getD_set_ne _ _ _ _ _ hij]
      simp [hij]
  refine ⟨rfl, by rw [hhdr]; simp, ?_, ?_, ?_, ?_⟩
  · show (v :: s.freeList).Nodup
    exact List.nodup_cons.mpr ⟨hvnot, h.nodup⟩
  · intro j hj
    show j < (s.cells.set v _).length
    rw [List.length_set]
    rcases List.mem_cons.mp hj with he | hm
    · subst he; exact hvlt
    · exact h.bounded j hm
  · intro j hj
    rw [hhdr]
    by_cases hij : v = j
    · simp [hij]
    · rw [if_neg hij]
      rcases List.mem_cons.mp hj with he | hm
      · exact absurd he.symm hij
      · exact h.freeDead j hm
  · intro j hj hdead
    show j ∈ v :: s.freeList
    rw [hhdr] at hdead
    by_cases hij : v = j
    · subst hij; exact List.mem_cons_self _ _
    · rw [if_neg hij] at hdead
      have hjlt : j < s.cells.length := by
        simpa [value_pool_free] using hj
      exact List.mem_cons_of_mem v (h.deadFree j hjlt hdead)

/-- Marking preserves the pool's length. -/
theorem markCells_length (reach : Nat → Bool) (k : Nat) (l : List (Cell × Hdr)) :
    (markCells reach k l).length = l.length := by
  induction l generalizing k <;> simp [markCells, *]

/-- Marking never changes a cell's alive bit. -/
theorem markCells_alive (reach : Nat → Bool) (k j : Nat) (l : List (Cell × Hdr)) :
    ((markCells reach k l).getD j (Cell.heapNode, ⟨false, false⟩)).2.alive =
      ((l.getD j (Cell.heapNode, ⟨false, false⟩))).2.alive := by
  induction l generalizing k j with
  | nil => simp [markCells]
  | cons a t ih =>
    cases j with
    | zero => simp [markCells, markHdr, List.getD_cons_zero]
    | succ m => simp only [markCells, List.getD_cons_succ]; exact ih _ _

/-- The mark phase touches neither the free list, the pool's shape, nor
any alive bit. -/
theorem gc_mark_shape (reach : Nat → Bool) (s : PoolState) :
    (gc_mark reach s).cells.length = s.cells.length ∧
    (gc_mark reach s).freeList = s.freeList ∧
    ∀ j, (getHdr (gc_mark reach s) j).alive = (getHdr s j).alive := by
  refine ⟨markCells_length _ _ _, rfl, ?_⟩
  intro j
  exact markCells_alive reach 0 j s.cells

/-- The mark phase preserves pool well-formedness. -/
theorem poolWF_gc_mark (reach : Nat → Bool) (s : PoolState) (h : PoolWF s) :
    PoolWF (gc_mark reach s) := by
  obtain ⟨hlen, hfree, halive⟩ := gc_mark_shape reach s
  refine ⟨?_, ?_, ?_, ?_⟩
  · rw [hfree]; exact h.nodup
  · intro j hj; rw [hfree] at hj; rw [hlen]; exact h.bounded j hj
  · intro j hj; rw [hfree] at hj; rw [halive]; exact h.freeDead j hj
  · intro j hj hdead
    rw [hlen] at hj
    rw [halive] at hdead
    rw [hfree]
    exact h.deadFree j hj hdead

/-- Dropping the string buffer changes nothing the well-formedness
predicate sees. -/
theorem sweep_drop_shape (s : PoolState) :
    (sweep_drop_string_buffer s).cells = s.cells ∧
    (sweep_drop_string_buffer s).freeList = s.freeList ∧
    ∀ j, getHdr (sweep_drop_string_buffer s) j = getHdr s j := by
  unfold sweep_drop_string_buffer
  by_cases hm : (getHdr s s.stringBuffer).mark = true
  · rw [if_pos hm]
    exact ⟨rfl, rfl, fun _ => rfl⟩
  · rw [if_neg hm]
    exact ⟨rfl, rfl, fun _ => rfl⟩

/-- Sweeping a dead slot is the identity. -/
theorem sweepCell_fix : sweepCell (Cell.heapNode, ⟨false, false⟩) = (Cell.heapNode, ⟨false, false⟩) := rfl

/-- The sweep phase preserves well-formedness and never shrinks the free
list. -/
theorem poolWF_gc_sweep (s : PoolState) (h : PoolWF s) :
    PoolWF (gc_sweep s).1 ∧
    s.freeList.length ≤ (gc_sweep s).1.freeList.length ∧
    (gc_sweep s).1.cells.length = s.cells.length := by
  obtain ⟨hcells, hfree, hhdr⟩ := sweep_drop_shape s
  have h1 : PoolWF (sweep_drop_string_buffer s) := by
    refine ⟨?_, ?_, ?_, ?_⟩
    · rw [hfree]; exact h.nodup
    · intro j hj; rw [hfree] at hj; rw [hcells]; exact h.bounded j hj
    · intro j hj; rw [hfree] at hj; rw [hhdr]; exact h.freeDead j hj
    · intro j hj hdead
      rw [hcells] at hj
      rw [hhdr] at hdead
      rw [hfree]
      exact h.deadFree j hj hdead
  set t := sweep_drop_string_buffer s with ht
  set freed := (List.range t.cells.length).filter (fun i => isCollected (getCH t i)) with hfr
  have hfreedmem : ∀ j, j ∈ freed ↔ j < t.cells.length ∧ isCollected (getCH t j) := by
    intro j
    rw [hfr]
    simp [List.mem_filter, List.mem_range]
  have hnewhdr : ∀ j, j < t.cells.length →
      getHdr (gc_sweep s).1 j = (sweepCell (getCH t j)).2 := by
    intro j hj
    show ((t.cells.map sweepCell).getD j (Cell.heapNode, ⟨false, false⟩)).2 = _
    rw [getD_map_fix sweepCell t.cells j (Cell.heapNode, ⟨false, false⟩) _ sweepCell_fix]
    rfl
  have hnewlen : (gc_sweep s).1.cells.length = t.cells.length := by
    show (t.cells.map sweepCell).length = _
    simp
  have hnewfree : (gc_sweep s).1.freeList = freed.reverse ++ t.freeList := rfl
  have hdisj : ∀ a ∈ freed.reverse, a ∉ t.freeList := by
    intro a ha hmem
    rw [List.mem_reverse] at ha
    have hcol := ((hfreedmem a).mp ha).2
    have hdead : (getCH t a).2.alive = false := h1.freeDead a hmem
    unfold isCollected at hcol
    rw [hdead] at hcol
    cases hcol
  refine ⟨⟨?_, ?_, ?_, ?_⟩, ?_, by rw [hnewlen, hcells]⟩
  · rw [hnewfree]
    refine List.Nodup.append ?_ h1.nodup hdisj
    rw [List.nodup_reverse, hfr]
    exact (List.nodup_range _).filter _
  · intro j hj
    rw [hnewfree] at hj
    rw [hnewlen]
    rcases List.mem_append.mp hj with hl | hr
    · rw [List.mem_reverse] at hl
      exact ((hfreedmem j).mp hl).1
    · exact h1.bounded j hr
  · intro j hj
    rw [hnewfree] at hj
    rcases List.mem_append.mp hj with hl | hr
    · rw [List.mem_reverse] at hl
      obtain ⟨hjlt, hcol⟩ := (hfreedmem j).mp hl
      rw [hnewhdr j hjlt]
      unfold isCollected at hcol
      unfold sweepCell
      have ha : (getCH t j).2.alive = true := by
        cases hx : (getCH t j).2.alive
        · rw [hx] at hcol; cases hcol
        · rfl
      have hm : (getCH t j).2.mark = false := by
        cases hx : (getCH t j).2.mark
        · rfl
        · rw [hx] at hcol
          rw [ha] at hcol
          cases hcol
      rw [ha, hm]
      simp
    · have hjlt : j < t.cells.length := h1.bounded j hr
      rw [hnewhdr j hjlt]
      have hdead : (getCH t j).2.alive = false := h1.freeDead j hr
      unfold sweepCell
      rw [hdead]
      simpa using hdead
  · intro j hj hdead
    rw [hnewlen] at hj
    rw [hnewhdr j hj] at hdead
    rw [hnewfree]
    unfold sweepCell at hdead
    cases halive : (getCH t j).2.alive with
    | false =>
      have hd : (getCH t j).2.alive = false := halive
      exact List.mem_append.mpr (Or.inr (h1.deadFree j hj hd))
    | true =>
      rw [halive] at hdead
      cases hmark : (getCH t j).2.mark with
      | false =>
        refine List.mem_append.mpr (Or.inl ?_)
        rw [List.mem_reverse]
        refine (hfreedmem j).mpr ⟨hj, ?_⟩
        unfold isCollected
        rw [halive, hmark]
        rfl
      | true =>
        rw [hmark] at hdead
        simp at hdead
  · rw [hnewfree, hfree]
    simp

/-- Bumping the GC pass counter does not affect well-formedness. -/
theorem poolWF_gcCount (s : PoolState) (n : Nat) (h : PoolWF s) :
    PoolWF { s with gcCount := n } :=
  ⟨h.nodup, h.bounded, h.freeDead, h.deadFree⟩

/-- `run_gc` preserves well-formedness and never shrinks the free list. -/
theorem poolWF_run_gc (reach : Nat → Bool) (s : PoolState) (h : PoolWF s) :
    PoolWF (run_gc reach s).1 ∧
    s.freeList.length ≤ (run_gc reach s).1.freeList.length ∧
    (run_gc reach s).1.cells.length = s.cells.length := by
  obtain ⟨hmlen, hmfree, _⟩ := gc_mark_shape reach s
  have hm := poolWF_gc_mark reach s h
  obtain ⟨hswf, hsmono, hslen⟩ := poolWF_gc_sweep (gc_mark reach s) hm
  refine ⟨poolWF_gcCount _ _ hswf, ?_, ?_⟩
  · show s.freeList.length ≤ (gc_sweep (gc_mark reach s)).1.freeList.length
    rw [← hmfree]
    exact hsmono
  · show (gc_sweep (gc_mark reach s)).1.cells.length = s.cells.length
    rw [hslen, hmlen]

/-- In a well-formed pool the free list is exactly as long as the count of
dead cells. -/
theorem pool_free_length_eq (s : PoolState) (h : PoolWF s) :
    s.freeList.length = s.cells.countP (fun ch => !(ch.2.alive)) := by
  classical
  have h1 : s.freeList.toFinset.card = s.freeList.length :=
    List.toFinset_card_of_nodup h.nodup
  have h2 : ((List.range s.cells.length).filter
      (fun i => !((getCH s i).2.alive))).Nodup := (List.nodup_range _).filter _
  have h3 : ((List.range s.cells.length).filter
      (fun i => !((getCH s i).2.alive))).toFinset.card =
      ((List.range s.cells.length).filter (fun i => !((getCH s i).2.alive))).length :=
    List.toFinset_card_of_nodup h2
  have hsetEq : s.freeList.toFinset =
      ((List.range s.cells.length).filter (fun i => !((getCH s i).2.alive))).toFinset := by
    ext i
    simp only [List.mem_toFinset, List.mem_filter, List.mem_range]
    constructor
    · intro hi
      refine ⟨h.bounded i hi, ?_⟩
      have := h.freeDead i hi
      unfold getHdr at this
      rw [this]
      rfl
    · rintro ⟨hlt, hdead⟩
      refine h.deadFree i hlt ?_
      unfold getHdr
      cases hx : (getCH s i).2.alive
      · rfl
      · rw [hx] at hdead; cases hdead
  have hlen : s.freeList.length =
      ((List.range s.cells.length).filter (fun i => !((getCH s i).2.alive))).length := by
    rw [← h1, ← h3, hsetEq]
  rw [hlen]
  rw [← List.countP_eq_length_filter]
  exact countP_range_getD s.cells (Cell.heapNode, ⟨false, false⟩) (fun ch => !(ch.2.alive))

/-- Conservation: in a well-formed pool, free cells plus alive cells is
the pool size. -/
theorem pool_conservation (s : PoolState) (h : PoolWF s) :
    s.freeList.length + aliveCount s = s.cells.length := by
  rw [pool_free_length_eq s h]
  unfold aliveCount
  rw [Nat.add_comm]
  exact countP_split s.cells (fun ch => ch.2.alive)

/-- The freshly initialised pool is well-formed, with every slot free. -/
theorem poolWF_value_pool_init :
    PoolWF value_pool_init ∧ value_pool_init.cells.length = VALUE_POOL_SIZE ∧
    value_pool_init.freeList.length = VALUE_POOL_SIZE ∧ aliveCount value_pool_init = 0 := by
  have hlen : value_pool_init.cells.length = VALUE_POOL_SIZE := by
    simp [value_pool_init]
  have hdead : ∀ j, (getHdr value_pool_init j).alive = false := by
    intro j
    unfold getHdr getCH value_pool_init
    simp only []
    by_cases hj : j < VALUE_POOL_SIZE
    · rw [List.getD_eq_getElem?_getD, List.getElem?_replicate]
      simp [hj]
    · rw [List.getD_eq_getElem?_getD, List.getElem?_replicate]
      simp [hj]
  have hwf : PoolWF value_pool_init := by
    refine ⟨initFreeList_nodup _, ?_, ?_, ?_⟩
    · intro i hi
      rw [hlen]
      exact (initFreeList_mem _ i).mp hi
    · intro i _
      exact hdead i
    · intro i hi _
      rw [hlen] at hi
      exact (initFreeList_mem _ i).mpr hi
  refine ⟨hwf, hlen, initFreeList_length _, ?_⟩
  have hcons := pool_conservation _ hwf
  have hfl : value_pool_init.freeList.length = VALUE_POOL_SIZE :=
    initFreeList_length VALUE_POOL_SIZE
  rw [hlen, hfl] at hcons
  omega

/-- C2: pool conservation.  The freshly initialised pool is well-formed
with all `VALUE_POOL_SIZE = 9000` cells free; in every well-formed pool
`#free + #alive` equals the pool size; well-formedness (in particular,
that no cell is simultaneously free and alive) is preserved by every
allocation, by every free, by payload writes, and by GC passes;
allocation pops exactly the free-list head and makes that one cell alive
(`#alive` grows by one), freeing does the reverse, and a `run_gc` — the
`gc` primitive — never decreases the number of free cells. -/
theorem pool_conservation_invariant :
    (PoolWF value_pool_init ∧ value_pool_init.cells.length = VALUE_POOL_SIZE ∧
      value_pool_init.freeList.length = VALUE_POOL_SIZE ∧ aliveCount value_pool_init = 0) ∧
    (∀ s : PoolState, PoolWF s →
      s.freeList.length + aliveCount s = s.cells.length ∧
      (∀ i ∈ s.freeList, (getHdr s i).alive = false)) ∧
    (∀ (s : PoolState) (v : Nat) (rest : List Nat), PoolWF s → s.freeList = v :: rest →
      value_pool_alloc s = ({ s with freeList := rest }, some v) ∧
      (init_val { s with freeList := rest } v).freeList = rest ∧
      getHdr (init_val { s with freeList := rest } v) v = ⟨true, false⟩ ∧
      PoolWF (init_val { s with freeList := rest } v) ∧
      aliveCount (init_val { s with freeList := rest } v) = aliveCount s + 1) ∧
    (∀ (s : PoolState) (v : Nat), PoolWF s → v < s.cells.length →
      (getHdr s v).alive = true →
      (value_pool_free s v).freeList = v :: s.freeList ∧
      PoolWF (value_pool_free s v) ∧
      aliveCount (value_pool_free s v) + 1 = aliveCount s) ∧
    (∀ (s : PoolState) (i : Nat) (c : Cell), PoolWF s → PoolWF (setCell s i c)) ∧
    (∀ (reach : Nat → Bool) (s : PoolState), PoolWF s → PoolWF (run_gc reach s).1) ∧
    (∀ (reach : Nat → Bool) (s : PoolState),
      s.freeList.length ≤ (run_gc reach s).1.freeList.length) := by
  refine ⟨poolWF_value_pool_init, ?_, ?_, ?_, ?_, ?_, ?_⟩
  · intro s hs
    exact ⟨pool_conservation s hs, hs.freeDead⟩
  · intro s v rest hs hfree
    obtain ⟨ha, hb, hc, hd⟩ := poolWF_alloc s v rest hs hfree
    refine ⟨ha, hb, hc, hd, ?_⟩
    have h1 := pool_conservation s hs
    rw [hfree] at h1
    simp only [List.length_cons] at h1
    have h2 : rest.length + aliveCount (init_val { s with freeList := rest } v)
        = s.cells.length := by
      have h2a := pool_conservation _ hd
      rw [hb, (init_val_shape _ _).1] at h2a
      exact h2a
    omega
  · intro s v hs hvlt halive
    obtain ⟨ha, _, hc⟩ := poolWF_free s v hs hvlt halive
    refine ⟨ha, hc, ?_⟩
    have h1 := pool_conservation s hs
    have h2 := pool_conservation _ hc
    rw [ha] at h2
    have hlen : (value_pool_free s v).cells.length = s.cells.length := by
      unfold value_pool_free
      simp
    rw [hlen] at h2
    simp only [List.length_cons] at h2
    omega
  · intro s i c hs
    exact poolWF_setCell s i c hs
  · intro reach s hs
    exact (poolWF_run_gc reach s hs).1
  · intro reach s
    unfold run_gc
    simp only []
    show s.freeList.length ≤ (gc_sweep (gc_mark reach s)).1.freeList.length
    have h1 : (gc_mark reach s).freeList = s.freeList := rfl
    calc s.freeList.length = (gc_mark reach s).freeList.length := by rw [h1]
      _ ≤ (gc_sweep (gc_mark reach s)).1.freeList.length := by
          show (gc_mark reach s).freeList.length ≤
            ((((List.range (sweep_drop_string_buffer (gc_mark reach s)).cells.length).filter
              (fun i => isCollected (getCH (sweep_drop_string_buffer (gc_mark reach s)) i))).reverse)
              ++ (sweep_drop_string_buffer (gc_mark reach s)).freeList).length
          rw [List.length_append]
          have : (sweep_drop_string_buffer (gc_mark reach s)).freeList =
              (gc_mark reach s).freeList := (sweep_drop_shape _).2.1
          rw [this]
          omega

/-- Witness for pool conservation: the theorem applied at the freshly
initialised pool gives `#free + #alive = 9000` there. -/
theorem pool_conservation_invariant_witness :
    value_pool_init.freeList.length + aliveCount value_pool_init =
      VALUE_POOL_SIZE := by
  have h := pool_conservation_invariant
  have hwf := h.1.1
  have hcons := (h.2.1 value_pool_init hwf).1
  rw [hcons]
  exact h.1.2.1

/-- A GC pass preserves the context's sentinel and host fields and bumps
the pass counter by exactly one. -/
theorem run_gc_fields (reach : Nat → Bool) (s : PoolState) :
    (run_gc reach s).1.oomRef = s.oomRef ∧
    (run_gc reach s).1.nilRef = s.nilRef ∧
    (run_gc reach s).1.gcCount = s.gcCount + 1 ∧
    (run_gc reach s).1.scratchRemaining = s.scratchRemaining := by
  have hdrop : ∀ t : PoolState, (sweep_drop_string_buffer t).oomRef = t.oomRef ∧
      (sweep_drop_string_buffer t).nilRef = t.nilRef ∧
      (sweep_drop_string_buffer t).gcCount = t.gcCount ∧
      (sweep_drop_string_buffer t).scratchRemaining = t.scratchRemaining := by
    intro t
    unfold sweep_drop_string_buffer
    by_cases hm : (getHdr t t.stringBuffer).mark = true
    · rw [if_pos hm]; exact ⟨rfl, rfl, rfl, rfl⟩
    · rw [if_neg hm]; exact ⟨rfl, rfl, rfl, rfl⟩
  obtain ⟨ho, hn, hg, hs⟩ := hdrop (gc_mark reach s)
  refine ⟨ho, hn, ?_, hs⟩
  rw [show (run_gc reach s).1.gcCount =
    (sweep_drop_string_buffer (gc_mark reach s)).gcCount + 1 from rfl, hg]
  rfl

/-- Allocation from a non-empty free list pops exactly the head, with no
GC pass. -/
theorem alloc_value_cons (reach : Nat → Bool) (s : PoolState) (v : Nat) (rest : List Nat)
    (hf : s.freeList = v :: rest) :
    alloc_value reach s = (init_val { s with freeList := rest } v, some v) := by
  have hv : value_pool_alloc s = ({ s with freeList := rest }, some v) := by
    unfold value_pool_alloc
    rw [hf]
  unfold alloc_value
  rw [hv]

/-- The two cells `init()` allocates: nil lands in slot 8999, the OOM
sentinel in slot 8998, tagged `error` / `out_of_memory` with nil context,
and the two are distinct. -/
theorem lisp_init_pool_spec :
    lisp_init_pool.oomRef = 8998 ∧ lisp_init_pool.nilRef = 8999 ∧
    getCell lisp_init_pool lisp_init_pool.oomRef
      = Cell.error ErrorCode.out_of_memory lisp_init_pool.nilRef ∧
    lisp_init_pool.oomRef ≠ lisp_init_pool.nilRef := by
  have hfinal : lisp_init_pool = initStateD := rfl
  have hoomref : lisp_init_pool.oomRef = 8998 := by rw [hfinal]; rfl
  have hnilref : lisp_init_pool.nilRef = 8999 := by rw [hfinal]; rfl
  have hlen : ({ (init_val initStateC 8998) with oomRef := 8998 } : PoolState).cells.length
      = 9000 := by
    rw [show ({ (init_val initStateC 8998) with oomRef := 8998 } : PoolState).cells
      = (init_val initStateC 8998).cells from rfl]
    rw [(init_val_shape initStateC 8998).1]
    rw [show initStateC.cells = initStateB.cells from rfl]
    rw [show initStateB.cells = (setCell { (init_val initStateA 8999) with
      nilRef := 8999, stringBuffer := 8999, lexicalBindings := 8999 } 8999 Cell.nil).cells
      from rfl]
    rw [(setCell_shape _ _ _).1]
    rw [show ({ (init_val initStateA 8999) with
      nilRef := 8999, stringBuffer := 8999, lexicalBindings := 8999 } : PoolState).cells
      = (init_val initStateA 8999).cells from rfl]
    rw [(init_val_shape initStateA 8999).1]
    rw [show initStateA.cells = value_pool_init.cells from rfl]
    rw [show value_pool_init.cells
      = List.replicate VALUE_POOL_SIZE (Cell.heapNode, ⟨false, false⟩) from rfl]
    rw [List.length_replicate]
    rfl
  refine ⟨hoomref, hnilref, ?_, ?_⟩
  · rw [hoomref, hnilref, hfinal]
    show getCell (setCell _ 8998 (Cell.error ErrorCode.out_of_memory 8999)) 8998 = _
    unfold getCell setCell getCH
    simp only []
    rw [getD_set_self]
    rw [hlen]
    omega
  · rw [hoomref, hnilref]
    decide


/-- C3: allocation pops the free-list head without a GC when the free list
is non-empty; on exhaustion it runs exactly one GC pass and retries
exactly once; when the retry also fails, every constructor — `make_cons`,
`make_integer`, `make_symbol`, `make_function`, `make_bytecode_function`,
`make_error`, `make_userdata`, `make_databuffer`, `make_string` — returns
the context's single shared OOM sentinel reference (never a null value and
never a freshly allocated error cell) and issues no further GC call after
the failed retry: the only passes in a call are the one inside
`alloc_value` plus, for `make_databuffer` alone, the preliminary
collect-stray-buffers pass taken when the host reports no scratch buffers
remaining.  The sentinel itself is allocated at `init()` with tag `error`,
code `out_of_memory`, context nil, distinct from the nil singleton. -/
theorem constructors_return_shared_oom_sentinel (reach : Nat → Bool) (s : PoolState)
    (h1 : s.freeList = [])
    (h2 : (run_gc reach s).1.freeList = [])
    (h3 : (run_gc reach (run_gc reach s).1).1.freeList = []) :
    alloc_value reach s = ((run_gc reach s).1, none) ∧
    (run_gc reach s).1.gcCount = s.gcCount + 1 ∧
    (∀ (s' : PoolState) (v : Nat) (rest : List Nat), s'.freeList = v :: rest →
      alloc_value reach s' = (init_val { s' with freeList := rest } v, some v) ∧
      (init_val { s' with freeList := rest } v).gcCount = s'.gcCount) ∧
    (∀ car cdr, make_cons reach s car cdr = ((run_gc reach s).1, s.oomRef)) ∧
    (∀ v, make_integer reach s v = ((run_gc reach s).1, s.oomRef)) ∧
    (∀ n, make_symbol reach s n = ((run_gc reach s).1, s.oomRef)) ∧
    (∀ impl, make_function reach s impl = ((run_gc reach s).1, s.oomRef)) ∧
    (∀ bc, make_bytecode_function reach s bc = ((run_gc reach s).1, s.oomRef)) ∧
    (∀ c ctx, make_error reach s c ctx = ((run_gc reach s).1, s.oomRef)) ∧
    (∀ o, make_userdata reach s o = ((run_gc reach s).1, s.oomRef)) ∧
    (s.scratchRemaining ≠ 0 → make_databuffer reach s = ((run_gc reach s).1, s.oomRef)) ∧
    (s.scratchRemaining = 0 →
      make_databuffer reach s = ((run_gc reach (run_gc reach s).1).1, s.oomRef) ∧
      (run_gc reach (run_gc reach s).1).1.gcCount = s.gcCount + 2) ∧
    (s.stringBuffer = s.nilRef → s.scratchRemaining ≠ 0 →
      ∀ str, make_string reach s str = ((run_gc reach s).1, s.oomRef)) ∧
    getCell lisp_init_pool lisp_init_pool.oomRef
      = Cell.error ErrorCode.out_of_memory lisp_init_pool.nilRef ∧
    lisp_init_pool.oomRef ≠ lisp_init_pool.nilRef := by
  have hvpa : value_pool_alloc s = (s, none) := by
    unfold value_pool_alloc
    rw [h1]
  have hvpa2 : value_pool_alloc (run_gc reach s).1 = ((run_gc reach s).1, none) := by
    unfold value_pool_alloc
    rw [h2]
  have halloc : alloc_value reach s = ((run_gc reach s).1, none) := by
    unfold alloc_value
    rw [hvpa]
    simp only [hvpa2]
  have hoom := (run_gc_fields reach s).1
  refine ⟨halloc, (run_gc_fields reach s).2.2.1, ?_, ?_, ?_, ?_, ?_, ?_, ?_, ?_, ?_, ?_, ?_, ?_, ?_⟩
  · intro s' v rest hf
    have hv : value_pool_alloc s' = ({ s' with freeList := rest }, some v) := by
      unfold value_pool_alloc
      rw [hf]
    constructor
    · unfold alloc_value
      rw [hv]
    · rfl
  · intro car cdr
    simp only [make_cons, halloc, hoom]
  · intro v
    simp only [make_integer, halloc, hoom]
  · intro n
    simp only [make_symbol, halloc, hoom]
  · intro impl
    simp only [make_function, halloc, hoom]
  · intro bc
    simp only [make_bytecode_function, halloc, hoom]
  · intro c ctx
    simp only [make_error, halloc, hoom]
  · intro o
    simp only [make_userdata, halloc, hoom]
  · intro hscr
    unfold make_databuffer
    rw [if_neg hscr]
    simp only [halloc, hoom]
  · intro hscr
    have hvpb : value_pool_alloc (run_gc reach s).1 = ((run_gc reach s).1, none) := hvpa2
    have hvpc : value_pool_alloc (run_gc reach (run_gc reach s).1).1 =
        ((run_gc reach (run_gc reach s).1).1, none) := by
      unfold value_pool_alloc
      rw [h3]
    have halloc2 : alloc_value reach (run_gc reach s).1 =
        ((run_gc reach (run_gc reach s).1).1, none) := by
      unfold alloc_value
      rw [hvpb]
      simp only [hvpc]
    have hoom2 : (run_gc reach (run_gc reach s).1).1.oomRef = s.oomRef := by
      rw [(run_gc_fields reach _).1, hoom]
    constructor
    · unfold make_databuffer
      rw [if_pos hscr]
      simp only [halloc2, hoom2]
    · rw [(run_gc_fields reach _).2.2.1, (run_gc_fields reach s).2.2.1]
  · intro hsb hscr str
    have hdb : make_databuffer reach s = ((run_gc reach s).1, s.oomRef) := by
      unfold make_databuffer
      rw [if_neg hscr]
      simp only [halloc, hoom]
    unfold make_string
    rw [hsb]
    simp only [ne_eq, eq_self_iff_true, not_true_eq_false, if_false, hdb, hoom, if_true]
  · exact lisp_init_pool_spec.2.2.1
  · exact lisp_init_pool_spec.2.2.2

/-- Witness for the OOM-sentinel theorem: with an exhausted pool and
nothing reclaimable, `make_cons` performs its single GC pass and returns
the context's shared sentinel reference. -/
theorem constructors_return_shared_oom_sentinel_witness :
    make_cons (fun _ => false) emptyPool 0 0
      = ((run_gc (fun _ => false) emptyPool).1, emptyPool.oomRef) := by
  have h := constructors_return_shared_oom_sentinel (fun _ => false) emptyPool rfl
    (by decide) (by decide)
  exact h.2.2.2.1 0 0

/-! ### Globals-tree lemmas -/

/-- The key list of a node in traversal order. -/
theorem gkeys_node (k v : Nat) (l r : GTree) :
    gkeys (GTree.node k v l r) = gkeys l ++ k :: gkeys r := by
  simp [gkeys, kvps]

/-- Key membership in a node unfolds over the traversal order. -/
theorem mem_gkeys_node (x k v : Nat) (l r : GTree) :
    x ∈ gkeys (GTree.node k v l r) ↔ x ∈ gkeys l ∨ x = k ∨ x ∈ gkeys r := by
  simp [gkeys, kvps]

/-- Overwriting insert at a matching node key. -/
theorem insert_node_self (k v v' : Nat) (l r : GTree) :
    globals_tree_insert (GTree.node k v' l r) k v = GTree.node k v l r := by
  simp [globals_tree_insert]

/-- Insert descends left past a smaller node key. -/
theorem insert_node_lt (k' v' k v : Nat) (l r : GTree) (h : k' < k) :
    globals_tree_insert (GTree.node k' v' l r) k v
      = GTree.node k' v' (globals_tree_insert l k v) r := by
  have hne : ¬(k' = k) := by omega
  simp [globals_tree_insert, hne, h]

/-- Insert descends right past a larger node key. -/
theorem insert_node_gt (k' v' k v : Nat) (l r : GTree) (h : k < k') :
    globals_tree_insert (GTree.node k' v' l r) k v
      = GTree.node k' v' l (globals_tree_insert r k v) := by
  have hne : ¬(k' = k) := by omega
  have hnlt : ¬(k' < k) := by omega
  simp [globals_tree_insert, hne, hnlt]

/-- The descent stops at a matching node key. -/
theorem find_opt_node_self (k v : Nat) (l r : GTree) :
    globals_tree_find_opt (GTree.node k v l r) k = some v := by
  simp [globals_tree_find_opt]

/-- The descent goes left past a smaller node key. -/
theorem find_opt_node_lt (k' v' k : Nat) (l r : GTree) (h : k' < k) :
    globals_tree_find_opt (GTree.node k' v' l r) k = globals_tree_find_opt l k := by
  have hne : ¬(k' = k) := by omega
  simp [globals_tree_find_opt, hne, h]

/-- The descent goes right past a larger node key. -/
theorem find_opt_node_gt (k' v' k : Nat) (l r : GTree) (h : k < k') :
    globals_tree_find_opt (GTree.node k' v' l r) k = globals_tree_find_opt r k := by
  have hne : ¬(k' = k) := by omega
  have hnlt : ¬(k' < k) := by omega
  simp [globals_tree_find_opt, hne, hnlt]

/-- `find` after `insert` of the same key returns the inserted value (the
descent follows the identical comparison path). -/
theorem find_opt_insert_self (t : GTree) (k v : Nat) :
    globals_tree_find_opt (globals_tree_insert t k v) k = some v := by
  induction t with
  | nil => simp [globals_tree_insert, globals_tree_find_opt]
  | node k' v' l r ihl ihr =>
    rcases Nat.lt_trichotomy k' k with hlt | he | hgt
    · rw [insert_node_lt _ _ _ _ _ _ hlt, find_opt_node_lt _ _ _ _ _ hlt, ihl]
    · subst he
      rw [insert_node_self, find_opt_node_self]
    · rw [insert_node_gt _ _ _ _ _ _ hgt, find_opt_node_gt _ _ _ _ _ hgt, ihr]

/-- `insert` leaves lookups of every other key unchanged. -/
theorem find_opt_insert_ne (t : GTree) (k v x : Nat) (h : x ≠ k) :
    globals_tree_find_opt (globals_tree_insert t k v) x = globals_tree_find_opt t x := by
  induction t with
  | nil =>
    have hkx : ¬(k = x) := fun hx => h hx.symm
    simp [globals_tree_insert, globals_tree_find_opt, hkx]
  | node k' v' l r ihl ihr =>
    rcases Nat.lt_trichotomy k' k with hlt | he | hgt
    · rw [insert_node_lt _ _ _ _ _ _ hlt]
      rcases Nat.lt_trichotomy k' x with hx | hex | hx
      · rw [find_opt_node_lt _ _ _ _ _ hx, find_opt_node_lt _ _ _ _ _ hx, ihl]
      · subst hex
        rw [find_opt_node_self, find_opt_node_self]
      · rw [find_opt_node_gt _ _ _ _ _ hx, find_opt_node_gt _ _ _ _ _ hx]
    · subst he
      have hne : ¬(k' = x) := fun hx => h hx.symm
      rw [insert_node_self]
      rcases Nat.lt_trichotomy k' x with hx | hex | hx
      · rw [find_opt_node_lt _ _ _ _ _ hx, find_opt_node_lt _ _ _ _ _ hx]
      · exact absurd hex hne
      · rw [find_opt_node_gt _ _ _ _ _ hx, find_opt_node_gt _ _ _ _ _ hx]
    · rw [insert_node_gt _ _ _ _ _ _ hgt]
      rcases Nat.lt_trichotomy k' x with hx | hex | hx
      · rw [find_opt_node_lt _ _ _ _ _ hx, find_opt_node_lt _ _ _ _ _ hx]
      · subst hex
        rw [find_opt_node_self, find_opt_node_self]
      · rw [find_opt_node_gt _ _ _ _ _ hx, find_opt_node_gt _ _ _ _ _ hx, ihr]

/-- The keys after an insert are the inserted key plus the old keys. -/
theorem mem_gkeys_insert (t : GTree) (k v x : Nat) :
    x ∈ gkeys (globals_tree_insert t k v) ↔ x = k ∨ x ∈ gkeys t := by
  induction t with
  | nil => simp [globals_tree_insert, gkeys, kvps]
  | node k' v' l r ihl ihr =>
    rcases Nat.lt_trichotomy k' k with hlt | he | hgt
    · rw [insert_node_lt _ _ _ _ _ _ hlt, mem_gkeys_node, mem_gkeys_node, ihl]
      tauto
    · subst he
      rw [insert_node_self, mem_gkeys_node, mem_gkeys_node]
      tauto
    · rw [insert_node_gt _ _ _ _ _ _ hgt, mem_gkeys_node, mem_gkeys_node, ihr]
      tauto

/-- Inserting preserves the search-tree ordering invariant. -/
theorem GWF_insert (t : GTree) (k v : Nat) (h : GWF t) :
    GWF (globals_tree_insert t k v) := by
  induction t with
  | nil => exact GWF.node (by simp [gkeys, kvps]) (by simp [gkeys, kvps]) GWF.nil GWF.nil
  | node k' v' l r ihl ihr =>
    cases h with
    | node hbl hbr hwl hwr =>
      rcases Nat.lt_trichotomy k' k with hlt | he | hgt
      · rw [insert_node_lt _ _ _ _ _ _ hlt]
        refine GWF.node ?_ hbr (ihl hwl) hwr
        intro x hx
        rcases (mem_gkeys_insert l k v x).mp hx with hxk | hxl
        · subst hxk; exact hlt
        · exact hbl x hxl
      · subst he
        rw [insert_node_self]
        exact GWF.node hbl hbr hwl hwr
      · rw [insert_node_gt _ _ _ _ _ _ hgt]
        refine GWF.node hbl ?_ hwl (ihr hwr)
        intro x hx
        rcases (mem_gkeys_insert r k v x).mp hx with hxk | hxr
        · subst hxk; exact hgt
        · exact hbr x hxr

/-- A successful lookup's kvp occurs in the traversal list. -/
theorem find_opt_some_mem (t : GTree) (k v : Nat)
    (h : globals_tree_find_opt t k = some v) : (k, v) ∈ kvps t := by
  induction t with
  | nil => simp [globals_tree_find_opt] at h
  | node k' v' l r ihl ihr =>
    rcases Nat.lt_trichotomy k' k with hlt | he | hgt
    · rw [find_opt_node_lt _ _ _ _ _ hlt] at h
      simp [kvps, ihl h]
    · subst he
      rw [find_opt_node_self] at h
      obtain rfl : v' = v := by injection h
      simp [kvps]
    · rw [find_opt_node_gt _ _ _ _ _ hgt] at h
      simp [kvps, ihr h]

/-- A key that is not in the tree is not found. -/
theorem find_opt_not_mem (t : GTree) (k : Nat) (h : k ∉ gkeys t) :
    globals_tree_find_opt t k = none := by
  cases hf : globals_tree_find_opt t k with
  | none => rfl
  | some v =>
    exact absurd (List.mem_map_of_mem Prod.fst (find_opt_some_mem t k v hf)) h

/-- In a well-formed tree every stored kvp is found by the descent. -/
theorem gwf_mem_find_opt (t : GTree) (h : GWF t) (k v : Nat)
    (hmem : (k, v) ∈ kvps t) : globals_tree_find_opt t k = some v := by
  induction t with
  | nil => simp [kvps] at hmem
  | node k' v' l r ihl ihr =>
    cases h with
    | node hbl hbr hwl hwr =>
      simp only [kvps, List.mem_append, List.mem_cons] at hmem
      rcases hmem with hl | hm | hr
      · have hk : k ∈ gkeys l := List.mem_map_of_mem Prod.fst hl
        have hlt := hbl k hk
        rw [find_opt_node_lt _ _ _ _ _ hlt]
        exact ihl hwl hl
      · rw [Prod.ext_iff] at hm
        obtain ⟨hk, hv⟩ := hm
        simp only at hk hv
        subst hk
        subst hv
        rw [find_opt_node_self]
      · have hk : k ∈ gkeys r := List.mem_map_of_mem Prod.fst hr
        have hgt := hbr k hk
        rw [find_opt_node_gt _ _ _ _ _ hgt]
        exact ihr hwr hr

/-- A well-formed tree has no duplicate keys. -/
theorem gkeys_nodup (t : GTree) (h : GWF t) : (gkeys t).Nodup := by
  induction t with
  | nil => simp [gkeys, kvps]
  | node k v l r ihl ihr =>
    cases h with
    | node hbl hbr hwl hwr =>
      have hknotr : k ∉ gkeys r := fun hk => by
        have := hbr k hk
        omega
      have hcons : (k :: gkeys r).Nodup := List.nodup_cons.mpr ⟨hknotr, ihr hwr⟩
      have hdisj : ∀ x ∈ gkeys l, x ∉ k :: gkeys r := by
        intro x hx hmem
        have hkx := hbl x hx
        rcases List.mem_cons.mp hmem with he | hr
        · omega
        · have := hbr x hr
          omega
      rw [gkeys_node]
      exact List.Nodup.append (ihl hwl) hcons hdisj

/-- Unlink at a matching node key hands back both subtrees. -/
theorem unlink_node_self (k v : Nat) (l r : GTree) :
    globals_tree_unlink (GTree.node k v l r) k = (GTree.nil, some (l, r)) := by
  simp [globals_tree_unlink]

/-- Unlink descends left past a smaller node key. -/
theorem unlink_node_lt (k' v' k : Nat) (l r : GTree) (h : k' < k) :
    globals_tree_unlink (GTree.node k' v' l r) k
      = (GTree.node k' v' (globals_tree_unlink l k).1 r, (globals_tree_unlink l k).2) := by
  have hne : ¬(k' = k) := by omega
  simp [globals_tree_unlink, hne, h]

/-- Unlink descends right past a larger node key. -/
theorem unlink_node_gt (k' v' k : Nat) (l r : GTree) (h : k < k') :
    globals_tree_unlink (GTree.node k' v' l r) k
      = (GTree.node k' v' l (globals_tree_unlink r k).1, (globals_tree_unlink r k).2) := by
  have hne : ¬(k' = k) := by omega
  have hnlt : ¬(k' < k) := by omega
  simp [globals_tree_unlink, hne, hnlt]

/-- The multiset of kvps of a node. -/
theorem kvps_node_coe (k v : Nat) (l r : GTree) :
    ((kvps (GTree.node k v l r) : List (Nat × Nat)) : Multiset (Nat × Nat))
      = (kvps l : Multiset (Nat × Nat)) + (k, v) ::ₘ (kvps r : Multiset (Nat × Nat)) := by
  show ((kvps l ++ (k, v) :: kvps r : List (Nat × Nat)) : Multiset (Nat × Nat)) = _
  rfl

/-- What `globals_tree_erase`'s descent does in a well-formed tree: either
the key is absent and the tree is returned unchanged, or the matching node
is cut out and its kvp and two orphaned (well-formed) subtrees are handed
back, accounting for every kvp of the original tree. -/
theorem unlink_spec (t : GTree) (k : Nat) (h : GWF t) :
    (globals_tree_unlink t k = (t, none) ∧ k ∉ gkeys t) ∨
    (∃ t' vk sl sr, globals_tree_unlink t k = (t', some (sl, sr)) ∧
      GWF t' ∧ GWF sl ∧ GWF sr ∧
      (∀ x ∈ gkeys t', x ∈ gkeys t) ∧
      ((kvps t : List (Nat × Nat)) : Multiset (Nat × Nat))
        = (k, vk) ::ₘ ((kvps t' : Multiset (Nat × Nat))
            + (kvps sl : Multiset (Nat × Nat)) + (kvps sr : Multiset (Nat × Nat)))) := by
  induction t with
  | nil =>
    left
    exact ⟨rfl, by simp [gkeys, kvps]⟩
  | node k' v' l r ihl ihr =>
    cases h with
    | node hbl hbr hwl hwr =>
      rcases Nat.lt_trichotomy k' k with hlt | he | hgt
      · rcases ihl hwl with ⟨hul, hnot⟩ | ⟨t'', vk, sl, sr, hu, hw', hwsl, hwsr, hsub, hms⟩
        · left
          constructor
          · rw [unlink_node_lt _ _ _ _ _ hlt, hul]
          · rw [mem_gkeys_node]
            rintro (hk | hk | hk)
            · exact hnot hk
            · omega
            · have := hbr k hk
              omega
        · right
          refine ⟨GTree.node k' v' t'' r, vk, sl, sr, ?_, ?_, hwsl, hwsr, ?_, ?_⟩
          · rw [unlink_node_lt _ _ _ _ _ hlt, hu]
          · refine GWF.node ?_ hbr hw' hwr
            intro x hx
            exact hbl x (hsub x hx)
          · intro x hx
            rw [mem_gkeys_node] at hx ⊢
            rcases hx with hx | hx | hx
            · exact Or.inl (hsub x hx)
            · exact Or.inr (Or.inl hx)
            · exact Or.inr (Or.inr hx)
          · rw [kvps_node_coe, kvps_node_coe, hms]
            simp only [← Multiset.singleton_add]
            abel
      · subst he
        right
        refine ⟨GTree.nil, v', l, r, unlink_node_self _ _ _ _, GWF.nil, hwl, hwr, ?_, ?_⟩
        · intro x hx
          simp [gkeys, kvps] at hx
        · rw [kvps_node_coe]
          rw [show ((kvps GTree.nil : List (Nat × Nat)) : Multiset (Nat × Nat)) = 0 from rfl]
          simp only [← Multiset.singleton_add]
          abel
      · rcases ihr hwr with ⟨hur, hnot⟩ | ⟨t'', vk, sl, sr, hu, hw', hwsl, hwsr, hsub, hms⟩
        · left
          constructor
          · rw [unlink_node_gt _ _ _ _ _ hgt, hur]
          · rw [mem_gkeys_node]
            rintro (hk | hk | hk)
            · have := hbl k hk
              omega
            · omega
            · exact hnot hk
        · right
          refine ⟨GTree.node k' v' l t'', vk, sl, sr, ?_, ?_, hwsl, hwsr, ?_, ?_⟩
          · rw [unlink_node_gt _ _ _ _ _ hgt, hu]
          · refine GWF.node hbl ?_ hwl hw'
            intro x hx
            exact hbr x (hsub x hx)
          · intro x hx
            rw [mem_gkeys_node] at hx ⊢
            rcases hx with hx | hx | hx
            · exact Or.inl hx
            · exact Or.inr (Or.inl hx)
            · exact Or.inr (Or.inr (hsub x hx))
          · rw [kvps_node_coe, kvps_node_coe, hms]
            simp only [← Multiset.singleton_add]
            abel

/-- A key is in the tree exactly when some kvp carries it. -/
theorem mem_gkeys_iff (t : GTree) (x : Nat) :
    x ∈ gkeys t ↔ ∃ v, (x, v) ∈ kvps t := by
  unfold gkeys
  constructor
  · intro hx
    obtain ⟨⟨a, b⟩, hmem, hfst⟩ := List.mem_map.mp hx
    exact ⟨b, by simpa [← hfst] using hmem⟩
  · rintro ⟨v, hv⟩
    exact List.mem_map_of_mem Prod.fst hv

/-- Folding a kvp list whose keys avoid `x` leaves the lookup at `x`
unchanged. -/
theorem find_opt_insert_kvps_not_mem (ps : List (Nat × Nat)) (t : GTree) (x : Nat)
    (h : x ∉ ps.map Prod.fst) :
    globals_tree_find_opt (insert_kvps t ps) x = globals_tree_find_opt t x := by
  induction ps generalizing t with
  | nil => rfl
  | cons p rest ih =>
    simp only [List.map_cons, List.mem_cons, not_or] at h
    show globals_tree_find_opt (insert_kvps (globals_tree_insert t p.1 p.2) rest) x = _
    rw [ih _ h.2, find_opt_insert_ne _ _ _ _ h.1]

/-- Folding a kvp list with distinct keys finds each stored pair. -/
theorem find_opt_insert_kvps_mem (ps : List (Nat × Nat)) (t : GTree) (x vx : Nat)
    (hmem : (x, vx) ∈ ps) (hnd : (ps.map Prod.fst).Nodup) :
    globals_tree_find_opt (insert_kvps t ps) x = some vx := by
  induction ps generalizing t with
  | nil => simp at hmem
  | cons p rest ih =>
    simp only [List.map_cons, List.nodup_cons] at hnd
    rcases List.mem_cons.mp hmem with he | hm
    · subst he
      show globals_tree_find_opt
        (insert_kvps (globals_tree_insert t (x, vx).1 (x, vx).2) rest) x = some vx
      rw [find_opt_insert_kvps_not_mem rest _ x hnd.1]
      exact find_opt_insert_self t x vx
    · show globals_tree_find_opt (insert_kvps (globals_tree_insert t p.1 p.2) rest) x = some vx
      exact ih _ hm hnd.2

/-- Folding kvps preserves the search-tree invariant. -/
theorem GWF_insert_kvps (ps : List (Nat × Nat)) (t : GTree) (h : GWF t) :
    GWF (insert_kvps t ps) := by
  induction ps generalizing t with
  | nil => exact h
  | cons p rest ih =>
    show GWF (insert_kvps (globals_tree_insert t p.1 p.2) rest)
    exact ih _ (GWF_insert _ _ _ h)

/-- What `globals_tree_erase` guarantees in a well-formed tree: the result
is well-formed, the erased key is gone, and — because both orphaned
subtrees are reinserted — every other key is still bound to its old
value. -/
theorem erase_spec (t : GTree) (k : Nat) (h : GWF t) :
    GWF (globals_tree_erase t k) ∧
    globals_tree_find_opt (globals_tree_erase t k) k = none ∧
    (∀ x, x ≠ k → globals_tree_find_opt (globals_tree_erase t k) x
        = globals_tree_find_opt t x) := by
  rcases unlink_spec t k h with ⟨hu, hnot⟩ | ⟨t', vk, sl, sr, hu, hw', hwsl, hwsr, _, hms⟩
  · unfold globals_tree_erase
    rw [hu]
    exact ⟨h, find_opt_not_mem t k hnot, fun x _ => rfl⟩
  · unfold globals_tree_erase
    rw [hu]
    have hnodup : (gkeys t).Nodup := gkeys_nodup t h
    have hkeys : ((gkeys t : List Nat) : Multiset Nat)
        = k ::ₘ (((gkeys t' : List Nat) : Multiset Nat)
            + ((gkeys sl : List Nat) : Multiset Nat)
            + ((gkeys sr : List Nat) : Multiset Nat)) := by
      have hmap := congrArg (Multiset.map Prod.fst) hms
      simpa [gkeys, Multiset.map_cons, Multiset.map_add] using hmap
    have hndm : (k ::ₘ (((gkeys t' : List Nat) : Multiset Nat)
        + ((gkeys sl : List Nat) : Multiset Nat)
        + ((gkeys sr : List Nat) : Multiset Nat))).Nodup := by
      rw [← hkeys]
      exact Multiset.coe_nodup.mpr hnodup
    rw [Multiset.nodup_cons] at hndm
    obtain ⟨hknotin, hndsum⟩ := hndm
    have hknot_t' : k ∉ gkeys t' := fun hk =>
      hknotin (by
        rw [Multiset.mem_add, Multiset.mem_add]
        exact Or.inl (Or.inl (Multiset.mem_coe.mpr hk)))
    have hknot_sl : k ∉ gkeys sl := fun hk =>
      hknotin (by
        rw [Multiset.mem_add, Multiset.mem_add]
        exact Or.inl (Or.inr (Multiset.mem_coe.mpr hk)))
    have hknot_sr : k ∉ gkeys sr := fun hk =>
      hknotin (by
        rw [Multiset.mem_add]
        exact Or.inr (Multiset.mem_coe.mpr hk))
    rw [Multiset.nodup_add] at hndsum
    obtain ⟨hnd_tsl, hnd_sr, hdisj_tsl_sr⟩ := hndsum
    rw [Multiset.nodup_add] at hnd_tsl
    obtain ⟨hnd_t', hnd_sl, hdisj_t'_sl⟩ := hnd_tsl
    have hdj_sl_sr : ∀ x ∈ gkeys sl, x ∉ gkeys sr := by
      intro x hx hx'
      exact (Multiset.disjoint_left.mp hdisj_tsl_sr
        (by rw [Multiset.mem_add]; exact Or.inr (Multiset.mem_coe.mpr hx)))
        (Multiset.mem_coe.mpr hx')
    have hdj_t'_sr : ∀ x ∈ gkeys t', x ∉ gkeys sr := by
      intro x hx hx'
      exact (Multiset.disjoint_left.mp hdisj_tsl_sr
        (by rw [Multiset.mem_add]; exact Or.inl (Multiset.mem_coe.mpr hx)))
        (Multiset.mem_coe.mpr hx')
    have hdj_t'_sl : ∀ x ∈ gkeys t', x ∉ gkeys sl := by
      intro x hx hx'
      exact (Multiset.disjoint_left.mp hdisj_t'_sl (Multiset.mem_coe.mpr hx))
        (Multiset.mem_coe.mpr hx')
    have hpart : ∀ p : Nat × Nat,
        p ∈ kvps t' ∨ p ∈ kvps sl ∨ p ∈ kvps sr → p ∈ kvps t := by
      intro p hp
      have : p ∈ ((kvps t : List (Nat × Nat)) : Multiset (Nat × Nat)) := by
        rw [hms, Multiset.mem_cons, Multiset.mem_add, Multiset.mem_add]
        rcases hp with hp | hp | hp
        · exact Or.inr (Or.inl (Or.inl (Multiset.mem_coe.mpr hp)))
        · exact Or.inr (Or.inl (Or.inr (Multiset.mem_coe.mpr hp)))
        · exact Or.inr (Or.inr (Multiset.mem_coe.mpr hp))
      exact Multiset.mem_coe.mp this
    have hsub_keys : ∀ x, x ∈ gkeys t' ∨ x ∈ gkeys sl ∨ x ∈ gkeys sr → x ∈ gkeys t := by
      intro x hx
      rcases hx with hx | hx | hx
      · obtain ⟨v, hv⟩ := (mem_gkeys_iff _ _).mp hx
        exact (mem_gkeys_iff _ _).mpr ⟨v, hpart _ (Or.inl hv)⟩
      · obtain ⟨v, hv⟩ := (mem_gkeys_iff _ _).mp hx
        exact (mem_gkeys_iff _ _).mpr ⟨v, hpart _ (Or.inr (Or.inl hv))⟩
      · obtain ⟨v, hv⟩ := (mem_gkeys_iff _ _).mp hx
        exact (mem_gkeys_iff _ _).mpr ⟨v, hpart _ (Or.inr (Or.inr hv))⟩
    refine ⟨GWF_insert_kvps _ _ (GWF_insert_kvps _ _ hw'), ?_, ?_⟩
    · rw [find_opt_insert_kvps_not_mem _ _ _ hknot_sr,
        find_opt_insert_kvps_not_mem _ _ _ hknot_sl]
      exact find_opt_not_mem t' k hknot_t'
    · intro x hxk
      by_cases hxsr : x ∈ gkeys sr
      · obtain ⟨v, hv⟩ := (mem_gkeys_iff _ _).mp hxsr
        rw [find_opt_insert_kvps_mem _ _ _ v hv (gkeys_nodup sr hwsr)]
        exact (gwf_mem_find_opt t h x v (hpart _ (Or.inr (Or.inr hv)))).symm
      · rw [find_opt_insert_kvps_not_mem _ _ _ hxsr]
        by_cases hxsl : x ∈ gkeys sl
        · obtain ⟨v, hv⟩ := (mem_gkeys_iff _ _).mp hxsl
          rw [find_opt_insert_kvps_mem _ _ _ v hv (gkeys_nodup sl hwsl)]
          exact (gwf_mem_find_opt t h x v (hpart _ (Or.inr (Or.inl hv)))).symm
        · rw [find_opt_insert_kvps_not_mem _ _ _ hxsl]
          by_cases hxt' : x ∈ gkeys t'
          · obtain ⟨v, hv⟩ := (mem_gkeys_iff _ _).mp hxt'
            rw [gwf_mem_find_opt t' hw' x v hv]
            exact (gwf_mem_find_opt t h x v (hpart _ (Or.inl hv))).symm
          · rw [find_opt_not_mem t' x hxt']
            have hxt : x ∉ gkeys t := by
              intro hxt
              obtain ⟨v, hv⟩ := (mem_gkeys_iff _ _).mp hxt
              have hvm : (x, v) ∈ ((kvps t : List (Nat × Nat)) : Multiset (Nat × Nat)) :=
                Multiset.mem_coe.mpr hv
              rw [hms, Multiset.mem_cons, Multiset.mem_add, Multiset.mem_add] at hvm
              rcases hvm with he | hvm | hvm
              · rw [Prod.ext_iff] at he
                obtain ⟨he1, _⟩ := he
                simp only at he1
                exact hxk he1
              · rcases hvm with hvm | hvm
                · exact hxt' ((mem_gkeys_iff _ _).mpr ⟨v, Multiset.mem_coe.mp hvm⟩)
                · exact hxsl ((mem_gkeys_iff _ _).mpr ⟨v, Multiset.mem_coe.mp hvm⟩)
              · exact hxsr ((mem_gkeys_iff _ _).mpr ⟨v, Multiset.mem_coe.mp hvm⟩)
            exact (find_opt_not_mem t x hxt).symm

/-- Insert never produces an empty tree. -/
theorem insert_ne_nil (t : GTree) (k v : Nat) : globals_tree_insert t k v ≠ GTree.nil := by
  cases t with
  | nil => simp [globals_tree_insert]
  | node k' v' l r =>
    rcases Nat.lt_trichotomy k' k with hlt | he | hgt
    · rw [insert_node_lt _ _ _ _ _ _ hlt]; simp
    · subst he; rw [insert_node_self]; simp
    · rw [insert_node_gt _ _ _ _ _ _ hgt]; simp

/-- A successful descent makes `globals_tree_find` report the value. -/
theorem globals_tree_find_found (t : GTree) (k v : Nat)
    (h : globals_tree_find_opt t k = some v) :
    globals_tree_find t k = FindResult.found v := by
  cases t with
  | nil => simp [globals_tree_find_opt] at h
  | node k' v' l r =>
    unfold globals_tree_find
    rw [h]

/-- A failed descent on a non-empty tree makes `globals_tree_find` report
the `undefined_variable_access` error. -/
theorem globals_tree_find_none (t : GTree) (k : Nat) (hne : t ≠ GTree.nil)
    (h : globals_tree_find_opt t k = none) :
    globals_tree_find t k = FindResult.errUndefined := by
  cases t with
  | nil => exact absurd rfl hne
  | node k' v' l r =>
    unfold globals_tree_find
    rw [h]

/-- At top level a non-`$` symbol lookup reduces to the globals tree. -/
theorem get_var_top (t : GTree) (s : Sym) (h : s.name.headD ' ' ≠ '$') :
    get_var (topLevel t) s =
      match globals_tree_find t s.ptr with
      | FindResult.found v => GetResult.val v
      | FindResult.nilResult => GetResult.nilResult
      | FindResult.errUndefined => GetResult.errUndefined := by
  unfold get_var topLevel
  rw [if_neg h]
  cases hf : globals_tree_find t s.ptr <;> simp [lexicalLookup, hf, List.find?]

/-- Any history of top-level `set` / `unbind` operations leaves the
globals tree well-formed. -/
theorem GWF_applyGlobalOps (ops : List GlobalOp) : GWF (applyGlobalOps ops) := by
  have hgen : ∀ (ops : List GlobalOp) (t : GTree), GWF t → GWF (ops.foldl applyGlobalOp t) := by
    intro ops
    induction ops with
    | nil => exact fun t h => h
    | cons op rest ih =>
      intro t h
      show GWF (rest.foldl applyGlobalOp (applyGlobalOp t op))
      refine ih _ ?_
      cases op with
      | setOp k v => exact GWF_insert _ _ _ h
      | unbindOp k => exact (erase_spec _ _ h).1
  exact hgen ops GTree.nil GWF.nil

/-- C5 (amended): at top level, for every well-formed globals tree — in
particular for the tree left by any prior history of insertions and
erasures — and every interned symbol whose name does not begin with `$`
and does not collide with a host constant: `set` inserts into the globals
tree and a following `get` returns exactly the stored value; `unbind`
erases the binding, after which `get` returns an
`undefined_variable_access` error whenever the tree is still non-empty,
and nil when the erase emptied the tree; the erase reinserts both subtrees
of the removed node, preserving the binding of every other key; and both
operations keep the tree well-formed. -/
theorem globals_set_get_unbind (t : GTree) (hwf : GWF t) (s : Sym) (v : Nat)
    (hname : s.name.headD ' ' ≠ '$') :
    (set_var (topLevel t) s v).globals = globals_tree_insert t s.ptr v ∧
    get_var (topLevel (globals_tree_insert t s.ptr v)) s = GetResult.val v ∧
    (unbind_builtin (topLevel t) s).globals = globals_tree_erase t s.ptr ∧
    (globals_tree_erase t s.ptr ≠ GTree.nil →
      get_var (topLevel (globals_tree_erase t s.ptr)) s = GetResult.errUndefined) ∧
    (globals_tree_erase t s.ptr = GTree.nil →
      get_var (topLevel (globals_tree_erase t s.ptr)) s = GetResult.nilResult) ∧
    (∀ x, x ≠ s.ptr → globals_tree_find_opt (globals_tree_erase t s.ptr) x
        = globals_tree_find_opt t x) ∧
    GWF (globals_tree_insert t s.ptr v) ∧ GWF (globals_tree_erase t s.ptr) ∧
    (∀ ops : List GlobalOp, GWF (applyGlobalOps ops)) := by
  obtain ⟨hewf, hekey, hepres⟩ := erase_spec t s.ptr hwf
  refine ⟨rfl, ?_, rfl, ?_, ?_, hepres, GWF_insert _ _ _ hwf, hewf,
    fun ops => GWF_applyGlobalOps ops⟩
  · rw [get_var_top _ _ hname,
      globals_tree_find_found _ _ _ (find_opt_insert_self t s.ptr v)]
  · intro hne
    rw [get_var_top _ _ hname, globals_tree_find_none _ _ hne hekey]
  · intro hnil
    rw [get_var_top _ _ hname, hnil]
    rfl

/-- C5 (counterexample to the claim as stated): (a) for the interned
symbol `$V`, `set` at top level stores a global binding but `get` takes
the positional-arguments special case and returns nil, not the stored
value 42; (b) after `set x` and `unbind x` in a fresh context the globals
tree is empty, and `get x` returns nil — not an
`undefined_variable_access` error as the claim demands. -/
theorem globals_set_get_unbind_counterexample :
    (get_var (set_var (topLevel GTree.nil) ⟨['$', 'V'], 0⟩ 42) ⟨['$', 'V'], 0⟩
        = GetResult.nilResult ∧
      GetResult.nilResult ≠ GetResult.val 42) ∧
    (get_var (topLevel (unbind_builtin
          (set_var (topLevel GTree.nil) ⟨['x'], 5⟩ 7) ⟨['x'], 5⟩).globals) ⟨['x'], 5⟩
        = GetResult.nilResult ∧
      GetResult.nilResult ≠ GetResult.errUndefined) := by
  decide

/-- Witness for the amended globals theorem: applied to the empty tree,
the symbol `x` (pointer 5) and value 3. -/
theorem globals_set_get_unbind_witness :
    get_var (topLevel (globals_tree_insert GTree.nil 5 3)) ⟨['x'], 5⟩ = GetResult.val 3 :=
  (globals_set_get_unbind GTree.nil GWF.nil ⟨['x'], 5⟩ 3 (by decide)).2.1

end BlindJumpLisp
